import Mathlib

/-!
# Leap Motion image correction: the per-frame pipeline of `main.cpp`

A shallow embedding of `src/LeapMotionImageCorrection/main.cpp`:
the correction (inverse warp) loop of lines 81-131 and the crop of lines 133-134.

Conventions of the embedding.

* The program is given twice. At top level the `float` and `double` values are exact
  rationals (`ℚ`): this is the program with arithmetic taken as exact, and it has no
  rounding, no infinities and no NaN. In namespace `Binary32` the same lines are given
  over IEEE 754 binary32 (`Float32`), with rounding to nearest, infinities, NaN and
  signed zeros, and with the conversion of the sample index to `int`; properties that
  depend on how the arithmetic rounds are stated there.
* `int` values are `Int`; matrix dimensions and loop counters, which the program only
  uses with non-negative values, are `Nat`.
* `unsigned char` pixels are `Nat`; the program never does arithmetic on them.
* A step whose behaviour C++ leaves undefined, or that raises an OpenCV assertion,
  returns `none`.
-/

namespace Leap

/-- Modelled from the spec: `Leap::Vector` of the Leap SDK (absent from the sources),
a triple of coordinates, here exact rationals. -/
structure Vector where
  x : ℚ
  y : ℚ
  z : ℚ

/-- Modelled from the spec: `Leap::Image` of the Leap SDK (absent from the sources), as far as
`main` uses it: validity, the raw size, the raw 8-bit buffer, the four ray calibration
constants and the warp function from ray slopes to raw pixel coordinates. -/
structure Image where
  isValid : Bool
  width : Int
  height : Int
  data : List Nat
  rayOffsetX : ℚ
  rayOffsetY : ℚ
  rayScaleX : ℚ
  rayScaleY : ℚ
  warp : Vector → Vector

/-- The read `image.data()[index]` with an `int` index: reading outside the buffer is
undefined behaviour, modelled as `none`. -/
def Image.dataAt (image : Image) (index : Int) : Option Nat :=
  if 0 ≤ index then image.data[index.toNat]? else none

end Leap

namespace cv

/-- Modelled from the spec: `cv::Rect` of OpenCV (absent from the sources), four `int` fields. -/
structure Rect where
  x : Int
  y : Int
  width : Int
  height : Int

/-- Modelled from the spec: `cv::Mat` of OpenCV (absent from the sources), restricted to
single-channel 8-bit matrices: a header (`rows`, `cols`, the row stride `step` and the
position `offset` of the first pixel) over a shared buffer. A buffer cell is `none` until
it has been written (a fresh matrix is uninitialised). -/
structure Mat where
  rows : Nat
  cols : Nat
  step : Nat
  offset : Nat
  buf : List (Option Nat)

/-- Modelled from the spec: the constructor `cv::Mat(rows, cols, CV_8UC1)`, a continuous
uninitialised matrix. -/
def Mat.create (rows cols : Nat) : Mat :=
  { rows := rows, cols := cols, step := cols, offset := 0,
    buf := List.replicate (rows * cols) none }

/-- Modelled from the spec: the assignment `m.at<unsigned char>(row, col) = value`. An access
outside the matrix (an assertion failure in debug builds, undefined otherwise) is `none`. -/
def Mat.atSet (m : Mat) (row col : Nat) (value : Nat) : Option Mat :=
  if row < m.rows ∧ col < m.cols then
    some { m with buf := m.buf.set (m.offset + row * m.step + col) (some value) }
  else none

/-- Modelled from the spec: the read `m.at<unsigned char>(row, col)`; `none` outside the matrix
and at a pixel never written. -/
def Mat.atGet (m : Mat) (row col : Nat) : Option Nat :=
  if row < m.rows ∧ col < m.cols then
    (m.buf[m.offset + row * m.step + col]?).join
  else none

/-- Modelled from the spec: the region test asserted by `cv::Mat::operator()(const Rect&)`:
the spec (4.3) requires the ROI to lie entirely within the image. The columns of the
matrix bound `x + width`, the rows bound `y + height`. -/
def Mat.contains (m : Mat) (roi : Rect) : Prop :=
  0 ≤ roi.x ∧ 0 ≤ roi.width ∧ roi.x + roi.width ≤ m.cols ∧
  0 ≤ roi.y ∧ 0 ≤ roi.height ∧ roi.y + roi.height ≤ m.rows

instance (m : Mat) (roi : Rect) : Decidable (m.contains roi) := by
  unfold Mat.contains; exact inferInstance

/-- Modelled from the spec: the crop `m(roi)`, that is `cv::Mat::operator()(const Rect&)` of
OpenCV (absent from the sources). A ROI that leaves the image is fatal (`none`); otherwise
the result has `roi.height` rows and `roi.width` columns and shows the pixels of
`[roi.x, roi.x + roi.width) × [roi.y, roi.y + roi.height)`: as in OpenCV it is a header on
the same buffer, with the same stride, whose first pixel is the one at `(roi.y, roi.x)`. -/
def Mat.crop (m : Mat) (roi : Rect) : Option Mat :=
  if m.contains roi then
    some { rows := roi.height.toNat, cols := roi.width.toNat, step := m.step,
           offset := m.offset + roi.y.toNat * m.step + roi.x.toNat, buf := m.buf }
  else none

end cv

/-- Line 12: `#define CORR_WIDTH 640`. -/
def CORR_WIDTH : Nat := 640

/-- Line 13: `#define CORR_HEIGHT 640`. -/
def CORR_HEIGHT : Nat := 640

/-- Line 57: `cv::Rect lRoi(100, 185, 402, 273)`. -/
def lRoi : cv.Rect := ⟨100, 185, 402, 273⟩

/-- Line 58: `cv::Rect rRoi(110, 184, 402, 273)`. -/
def rRoi : cv.Rect := ⟨110, 184, 402, 273⟩

/-- The test of lines 107 and 119 on a warped pixel, in exact arithmetic:
`pixel.x >= 0 && pixel.x < image.width() && pixel.y >= 0 && pixel.y < image.height()`. -/
def inImage (pixel : Leap.Vector) (image : Leap.Image) : Prop :=
  pixel.x ≥ 0 ∧ pixel.x < image.width ∧ pixel.y ≥ 0 ∧ pixel.y < image.height

instance (pixel : Leap.Vector) (image : Leap.Image) : Decidable (inImage pixel image) := by
  unfold inImage; exact inferInstance

/-- The index of lines 109 and 121, `floor(pixel.y) * image.width() + floor(pixel.x)`, in
exact arithmetic (`Binary32.index` is the `float` evaluation converted to `int`). -/
def index (pixel : Leap.Vector) (image : Leap.Image) : Int :=
  ⌊pixel.y⌋ * image.width + ⌊pixel.x⌋

/-- The variables that live across the iterations of the pixel loop (lines 81-83): the two
corrected matrices and the shared `brightness`, which is declared without a value. -/
structure Corrected where
  lcCam : cv.Mat
  rcCam : cv.Mat
  brightness : Option Nat

/-- The body of the pixel loop, lines 91-128, at loop counters `i` and `j`, in exact
arithmetic (`Binary32.loopBody` is the same body in `float`); `W` and `H` stand for the
macros `CORR_WIDTH` and `CORR_HEIGHT`. -/
def loopBody (W H : Nat) (lImage rImage : Leap.Image) (i j : Nat) (s : Corrected) :
    Option Corrected :=
  -- lines 91-92
  let lInput : Leap.Vector := ⟨(i : ℚ) / (W : ℚ), (j : ℚ) / (H : ℚ), 0⟩
  let rInput : Leap.Vector := ⟨(i : ℚ) / (W : ℚ), (j : ℚ) / (H : ℚ), 0⟩
  -- lines 95-96
  let lInput : Leap.Vector := { lInput with x := (lInput.x - lImage.rayOffsetX) / lImage.rayScaleX }
  let lInput : Leap.Vector := { lInput with y := (lInput.y - lImage.rayOffsetY) / lImage.rayScaleY }
  -- lines 99-100
  let rInput : Leap.Vector := { rInput with x := (rInput.x - rImage.rayOffsetX) / rImage.rayScaleX }
  let rInput : Leap.Vector := { rInput with y := (rInput.y - rImage.rayOffsetY) / rImage.rayScaleY }
  -- lines 103-104
  let lPixel := lImage.warp lInput
  let rPixel := rImage.warp rInput
  -- lines 107-115
  (if inImage lPixel lImage then lImage.dataAt (index lPixel lImage) else some 255).bind
    fun brightness =>
  -- line 116
  (s.lcCam.atSet j i brightness).bind fun lcCam =>
  -- lines 119-127
  (if inImage rPixel rImage then rImage.dataAt (index rPixel rImage) else some 255).bind
    fun brightness =>
  -- line 128
  (s.rcCam.atSet j i brightness).bind fun rcCam =>
  some { lcCam := lcCam, rcCam := rcCam, brightness := some brightness }

/-- The iteration space of the nested loops of lines 85 and 87, in execution order:
`i` runs over `0 .. W-1` and, inside, `j` over `0 .. H-1`. -/
def pixelLoop (W H : Nat) : List (Nat × Nat) :=
  (List.range W).flatMap fun i => (List.range H).map fun j => (i, j)

/-- Lines 81-131 with the macros as parameters: allocate both corrected matrices with
`W` rows and `H` columns and run the loop body at every `(i, j)`. -/
def correctWith (W H : Nat) (lImage rImage : Leap.Image) : Option Corrected :=
  (pixelLoop W H).foldlM (fun s ij => loopBody W H lImage rImage ij.1 ij.2 s)
    { lcCam := cv.Mat.create W H, rcCam := cv.Mat.create W H, brightness := none }

/-- Lines 81-131 of `main`. -/
def correct (lImage rImage : Leap.Image) : Option Corrected :=
  correctWith CORR_WIDTH CORR_HEIGHT lImage rImage

/-- What one pass through the body of `while (true)` (lines 63-176) does. -/
inductive Frame where
  -- line 71: an image is invalid and the frame is skipped
  | skipped
  -- the correction loop hit undefined behaviour
  | undefined
  -- the correction loop finished with these two corrected images, then a crop of
  -- line 133 or 134 failed; nothing is saved or shown
  | cropFailed (lcCam rcCam : cv.Mat)
  -- the frame went through: corrected and cropped images of both cameras
  | processed (lcCam rcCam lCropped rCropped : cv.Mat)

/-- One pass through the body of `while (true)`, lines 63-134, with the two regions of
interest of lines 57-58 as parameters: the validity test of lines 69-72, the correction
of lines 81-131 and the two crops of lines 133-134. The raw images wrapped at lines 75-78
and the file and window output of lines 136-170 are input and output only and are left
out. A failing crop raises `cv::Exception`, which `main` does not catch. -/
def frameWith (leftRoi rightRoi : cv.Rect) (lImage rImage : Leap.Image) : Frame :=
  if !(lImage.isValid && rImage.isValid) then Frame.skipped
  else
    match correct lImage rImage with
    | none => Frame.undefined
    | some s =>
      match s.lcCam.crop leftRoi with
      | none => Frame.cropFailed s.lcCam s.rcCam
      | some lCropped =>
        match s.rcCam.crop rightRoi with
        | none => Frame.cropFailed s.lcCam s.rcCam
        | some rCropped => Frame.processed s.lcCam s.rcCam lCropped rCropped

/-- One pass through the body of `while (true)` of `main`, lines 63-134. -/
def frame (lImage rImage : Leap.Image) : Frame :=
  frameWith lRoi rRoi lImage rImage

/-! ## Definitions used to state the properties -/

/-- The data model's invariant on a raw image: the buffer holds `width * height` bytes. -/
def Leap.Image.WellFormed (image : Leap.Image) : Prop :=
  (image.data.length : Int) = image.width * image.height

/-- Layout invariant of a matrix header: rows do not overlap and every pixel lies in the
buffer. -/
def cv.Mat.Valid (m : cv.Mat) : Prop :=
  m.cols ≤ m.step ∧ ∀ r c, r < m.rows → c < m.cols → m.offset + r * m.step + c < m.buf.length

/-- The data model's condition on a ROI for a `W × H` rectified image:
`0 ≤ x`, `0 ≤ y`, `x + width ≤ W` and `y + height ≤ H`. -/
def cv.Rect.within (roi : cv.Rect) (W H : Nat) : Prop :=
  0 ≤ roi.x ∧ 0 ≤ roi.y ∧ roi.x + roi.width ≤ W ∧ roi.y + roi.height ≤ H

instance (roi : cv.Rect) (W H : Nat) : Decidable (roi.within W H) := by
  unfold cv.Rect.within; exact inferInstance

/-- The ray of output pixel `(i, j)` as the specification gives it (4.2, steps 1-2):
`((i / W - offsetX) / scaleX, (j / H - offsetY) / scaleY)`. -/
def Leap.Image.ray (image : Leap.Image) (W H i j : Nat) : Leap.Vector :=
  ⟨((i : ℚ) / (W : ℚ) - image.rayOffsetX) / image.rayScaleX,
   ((j : ℚ) / (H : ℚ) - image.rayOffsetY) / image.rayScaleY, 0⟩

/-- The rectified pixel `(i, j)` in the specification's words (4.2, steps 3-5): with
`(px, py) = warp(ray)`, the raw byte `raw[floor(py) * w + floor(px)]` when `0 ≤ px < w` and
`0 ≤ py < h`, and 255 otherwise. -/
def specPixel (W H : Nat) (image : Leap.Image) (i j : Nat) : Option Nat :=
  let px := (image.warp (image.ray W H i j)).x
  let py := (image.warp (image.ray W H i j)).y
  if 0 ≤ px ∧ px < image.width ∧ 0 ≤ py ∧ py < image.height then
    image.data[(⌊py⌋ * image.width + ⌊px⌋).toNat]?
  else some 255

/-- The brightness one camera computes at loop counters `(i, j)`: lines 91, 95-96, 103 and
107-115 of the loop body for the left image, lines 92, 99-100, 104 and 119-127 for the
right one. -/
def brightnessOf (W H : Nat) (image : Leap.Image) (i j : Nat) : Option Nat :=
  if inImage (image.warp (image.ray W H i j)) image then
    image.dataAt (index (image.warp (image.ray W H i j)) image)
  else some 255

/-- One iteration of the pixel loop restricted to one camera. -/
def rectifyStep (W H : Nat) (image : Leap.Image) (m : cv.Mat) (ij : Nat × Nat) :
    Option cv.Mat :=
  (brightnessOf W H image ij.1 ij.2).bind fun brightness => m.atSet ij.2 ij.1 brightness

/-- The pixel loop restricted to one camera: the specification's
`rectify(rawImage, calibration)`. -/
def rectify (W H : Nat) (image : Leap.Image) : Option cv.Mat :=
  (pixelLoop W H).foldlM (rectifyStep W H image) (cv.Mat.create W H)

/-- Identity calibration for a `W × H` output: zero offsets, unit scales, a warp that
scales the ray by the raw size, and a raw image of the output's size. -/
def IdentityCalibration (image : Leap.Image) (W H : Nat) : Prop :=
  image.rayOffsetX = 0 ∧ image.rayOffsetY = 0 ∧ image.rayScaleX = 1 ∧ image.rayScaleY = 1 ∧
  (∀ v, (image.warp v).x = v.x * image.width ∧ (image.warp v).y = v.y * image.height) ∧
  image.width = W ∧ image.height = H

/-- The warp of the image leaves the raw frame for every ray. -/
def WarpsOutside (image : Leap.Image) : Prop :=
  ∀ v, ¬ inImage (image.warp v) image

/-- Example input: a valid 1 × 1 raw image of value 42 whose warp sends every ray to
`(0, 0)`. -/
def image42 : Leap.Image :=
  { isValid := true, width := 1, height := 1, data := [42],
    rayOffsetX := 0, rayOffsetY := 0, rayScaleX := 1, rayScaleY := 1,
    warp := fun _ => ⟨0, 0, 0⟩ }

/-- Example input: a valid 1 × 1 raw image whose warp sends every ray to `(-1/2, 0)`, just
left of the frame. -/
def imageOutside : Leap.Image :=
  { isValid := true, width := 1, height := 1, data := [42],
    rayOffsetX := 0, rayOffsetY := 0, rayScaleX := 1, rayScaleY := 1,
    warp := fun _ => ⟨-1/2, 0, 0⟩ }

/-- Example input: a valid 640 × 640 raw image under identity calibration; byte `k` of the
buffer is `k % 256`. -/
def imageIdentity : Leap.Image :=
  { isValid := true, width := 640, height := 640,
    data := (List.range (640 * 640)).map fun k => k % 256,
    rayOffsetX := 0, rayOffsetY := 0, rayScaleX := 1, rayScaleY := 1,
    warp := fun v => ⟨v.x * 640, v.y * 640, 0⟩ }

/-- Example input: a ROI that leaves the 640 × 640 rectified image on the right. -/
def roiOutside : cv.Rect := ⟨600, 0, 402, 273⟩

/-- Example input: a 2 × 3 matrix with every pixel written. -/
def matExample : cv.Mat :=
  { rows := 2, cols := 3, step := 3, offset := 0,
    buf := [some 10, some 11, some 12, some 20, some 21, some 22] }

/-- The `(row, column)` positions written by `lcCam.at<unsigned char>(j, i)` (line 116) and
`rcCam.at<unsigned char>(j, i)` (line 128), one per iteration of the pixel loop, in order. -/
def writeTargets (W H : Nat) : List (Nat × Nat) :=
  (pixelLoop W H).map fun ij => (ij.2, ij.1)

/-! ## Single precision arithmetic

The program computes in `float`. The definitions below give the IEEE 754 binary32
format with round-to-nearest, ties-to-even, and the program again over that arithmetic
(namespace `Binary32`). -/

/-- A value of the IEEE 754 binary32 format: NaN, an infinity, negative zero, or a finite
number given by its rational value (`finite 0` is positive zero). -/
inductive Float32 where
  | nan
  | inf (negative : Bool)
  | negZero
  | finite (value : ℚ)

namespace Float32

/-- The sign bit. -/
def signBit : Float32 → Bool
  | nan => false
  | inf negative => negative
  | negZero => true
  | finite value => decide (value < 0)

/-- The rational value of a zero or finite number; 0 for NaN and the infinities. -/
def toRat : Float32 → ℚ
  | finite value => value
  | _ => 0

/-- The number is a zero or finite. -/
def isFinite : Float32 → Bool
  | finite _ => true
  | negZero => true
  | _ => false

/-- Round a non-negative rational to the nearest integer, ties to even. -/
def roundHalfEven (x : ℚ) : ℤ :=
  if x - ⌊x⌋ < 1 / 2 then ⌊x⌋
  else if 1 / 2 < x - ⌊x⌋ then ⌊x⌋ + 1
  else if ⌊x⌋ % 2 = 0 then ⌊x⌋ else ⌊x⌋ + 1

/-- Round a non-negative magnitude to 24 significant bits, ties to even, with the
exponent unbounded above and bounded below by that of the subnormal numbers: the unit
in the last place is `2 ^ (e - 23)` with `e = max ⌊log₂ m⌋ (-126)`. -/
def roundMag (m : ℚ) : ℚ :=
  roundHalfEven (m / 2 ^ (max (Int.log 2 m) (-126) - 23)) * 2 ^ (max (Int.log 2 m) (-126) - 23)

/-- The binary32 number with the given sign nearest to the given non-negative magnitude:
overflow gives an infinity, underflow a signed zero. -/
def make (negative : Bool) (magnitude : ℚ) : Float32 :=
  if 2 ^ 128 ≤ roundMag magnitude then inf negative
  else if roundMag magnitude = 0 then (if negative then negZero else finite 0)
  else finite (if negative then -roundMag magnitude else roundMag magnitude)

/-- The conversion `(float)n` of an `int`. -/
def ofInt (n : Int) : Float32 :=
  make (decide (n < 0)) |(n : ℚ)|

/-- Unary minus. -/
def neg : Float32 → Float32
  | nan => nan
  | inf negative => inf (!negative)
  | negZero => finite 0
  | finite value => if value = 0 then negZero else finite (-value)

/-- The sum `x + y`. -/
def add : Float32 → Float32 → Float32
  | nan, _ => nan
  | _, nan => nan
  | inf a, inf b => if a = b then inf a else nan
  | inf a, _ => inf a
  | _, inf b => inf b
  | x, y =>
    if x.toRat + y.toRat = 0 then (if x.signBit && y.signBit then negZero else finite 0)
    else make (decide (x.toRat + y.toRat < 0)) |x.toRat + y.toRat|

/-- The difference `x - y`. -/
def sub (x y : Float32) : Float32 :=
  add x (neg y)

/-- The product `x * y`. -/
def mul : Float32 → Float32 → Float32
  | nan, _ => nan
  | _, nan => nan
  | inf a, inf b => inf (xor a b)
  | inf a, y => if y.toRat = 0 then nan else inf (xor a y.signBit)
  | x, inf b => if x.toRat = 0 then nan else inf (xor x.signBit b)
  | x, y => make (xor x.signBit y.signBit) |x.toRat * y.toRat|

/-- The quotient `x / y`. -/
def div : Float32 → Float32 → Float32
  | nan, _ => nan
  | _, nan => nan
  | inf _, inf _ => nan
  | inf a, y => inf (xor a y.signBit)
  | x, inf b => if xor x.signBit b then negZero else finite 0
  | x, y =>
    if y.toRat = 0 then
      (if x.toRat = 0 then nan else inf (xor x.signBit y.signBit))
    else make (xor x.signBit y.signBit) |x.toRat / y.toRat|

/-- The comparison `x < y`; false when either side is NaN. -/
def lt : Float32 → Float32 → Bool
  | nan, _ => false
  | _, nan => false
  | inf a, inf b => a && !b
  | inf a, _ => a
  | _, inf b => !b
  | x, y => decide (x.toRat < y.toRat)

/-- The comparison `x >= y`; false when either side is NaN. -/
def ge : Float32 → Float32 → Bool
  | nan, _ => false
  | _, nan => false
  | inf a, inf b => !a || b
  | inf a, _ => !a
  | _, inf b => b
  | x, y => decide (y.toRat ≤ x.toRat)

/-- The function `floor` on `float`. -/
def floor : Float32 → Float32
  | finite value => finite ⌊value⌋
  | x => x

/-- The conversion of a `float` to `int`, which truncates toward zero; the behaviour is
undefined (`none`) for NaN, the infinities and values outside the range of `int`. -/
def toInt : Float32 → Option Int
  | nan => none
  | inf _ => none
  | negZero => some 0
  | finite value =>
    if -2 ^ 31 ≤ (if value < 0 then ⌈value⌉ else ⌊value⌋) ∧
        (if value < 0 then ⌈value⌉ else ⌊value⌋) < 2 ^ 31 then
      some (if value < 0 then ⌈value⌉ else ⌊value⌋)
    else none

end Float32

namespace Binary32

/-- Modelled from the spec: `Leap::Vector` of the Leap SDK (absent from the sources), three
`float` coordinates. -/
structure Vector where
  x : Float32
  y : Float32
  z : Float32

/-- Modelled from the spec: `Leap::Image` of the Leap SDK (absent from the sources), as far as
`main` uses it, with `float` calibration constants and a warp on `float` vectors. -/
structure Image where
  isValid : Bool
  width : Int
  height : Int
  data : List Nat
  rayOffsetX : Float32
  rayOffsetY : Float32
  rayScaleX : Float32
  rayScaleY : Float32
  warp : Vector → Vector

/-- The read `image.data()[index]` with an `int` index: reading outside the buffer is
undefined behaviour, modelled as `none`. -/
def Image.dataAt (image : Image) (index : Int) : Option Nat :=
  if 0 ≤ index then image.data[index.toNat]? else none

/-- The test of lines 107 and 119 on a warped pixel, in `float`: the `int` operands `0`,
`image.width()` and `image.height()` are converted to `float` before the comparison. -/
def inImage (pixel : Vector) (image : Image) : Prop :=
  Float32.ge pixel.x (Float32.ofInt 0) = true ∧
  Float32.lt pixel.x (Float32.ofInt image.width) = true ∧
  Float32.ge pixel.y (Float32.ofInt 0) = true ∧
  Float32.lt pixel.y (Float32.ofInt image.height) = true

instance (pixel : Vector) (image : Image) : Decidable (inImage pixel image) := by
  unfold inImage; exact inferInstance

/-- The index of lines 109 and 121, `int index = floor(pixel.y) * image.width() +
floor(pixel.x)`: `floor` of a `float`, the product with the converted `int` and the sum
are evaluated in `float`, and the result is converted to `int`. -/
def index (pixel : Vector) (image : Image) : Option Int :=
  Float32.toInt
    (Float32.add (Float32.mul (Float32.floor pixel.y) (Float32.ofInt image.width))
      (Float32.floor pixel.x))

/-- The body of the pixel loop, lines 91-128, at loop counters `i` and `j`, in `float`
arithmetic; `W` and `H` stand for the macros `CORR_WIDTH` and `CORR_HEIGHT`. -/
def loopBody (W H : Nat) (lImage rImage : Image) (i j : Nat) (s : Corrected) :
    Option Corrected :=
  -- lines 91-92
  let lInput : Vector :=
    ⟨Float32.div (Float32.ofInt i) (Float32.ofInt W),
     Float32.div (Float32.ofInt j) (Float32.ofInt H), Float32.ofInt 0⟩
  let rInput : Vector :=
    ⟨Float32.div (Float32.ofInt i) (Float32.ofInt W),
     Float32.div (Float32.ofInt j) (Float32.ofInt H), Float32.ofInt 0⟩
  -- lines 95-96
  let lInput : Vector :=
    { lInput with x := Float32.div (Float32.sub lInput.x lImage.rayOffsetX) lImage.rayScaleX }
  let lInput : Vector :=
    { lInput with y := Float32.div (Float32.sub lInput.y lImage.rayOffsetY) lImage.rayScaleY }
  -- lines 99-100
  let rInput : Vector :=
    { rInput with x := Float32.div (Float32.sub rInput.x rImage.rayOffsetX) rImage.rayScaleX }
  let rInput : Vector :=
    { rInput with y := Float32.div (Float32.sub rInput.y rImage.rayOffsetY) rImage.rayScaleY }
  -- lines 103-104
  let lPixel := lImage.warp lInput
  let rPixel := rImage.warp rInput
  -- lines 107-115
  (if inImage lPixel lImage then (index lPixel lImage).bind lImage.dataAt else some 255).bind
    fun brightness =>
  -- line 116
  (s.lcCam.atSet j i brightness).bind fun lcCam =>
  -- lines 119-127
  (if inImage rPixel rImage then (index rPixel rImage).bind rImage.dataAt else some 255).bind
    fun brightness =>
  -- line 128
  (s.rcCam.atSet j i brightness).bind fun rcCam =>
  some { lcCam := lcCam, rcCam := rcCam, brightness := some brightness }

/-- Lines 81-131 with the macros as parameters, in `float` arithmetic. -/
def correctWith (W H : Nat) (lImage rImage : Image) : Option Corrected :=
  (pixelLoop W H).foldlM (fun s ij => loopBody W H lImage rImage ij.1 ij.2 s)
    { lcCam := cv.Mat.create W H, rcCam := cv.Mat.create W H, brightness := none }

/-- Lines 81-131 of `main`, in `float` arithmetic. -/
def correct (lImage rImage : Image) : Option Corrected :=
  correctWith CORR_WIDTH CORR_HEIGHT lImage rImage

end Binary32

/-- The number is a zero or a finite number whose value is the natural number `n`. -/
def Float32.IsNat (x : Float32) (n : ℕ) : Prop :=
  (x = Float32.negZero ∧ n = 0) ∨ x = Float32.finite (n : ℚ)

namespace Binary32

/-- The data model's invariant on a raw image: the buffer holds `width * height` bytes. -/
def Image.WellFormed (image : Image) : Prop :=
  (image.data.length : Int) = image.width * image.height

/-- The ray of output pixel `(i, j)` as the specification gives it (4.2, steps 1-2),
`((i / W - offsetX) / scaleX, (j / H - offsetY) / scaleY)`, every operation in `float`. -/
def Image.ray (image : Image) (W H i j : Nat) : Vector :=
  ⟨Float32.div (Float32.sub (Float32.div (Float32.ofInt i) (Float32.ofInt W))
      image.rayOffsetX) image.rayScaleX,
   Float32.div (Float32.sub (Float32.div (Float32.ofInt j) (Float32.ofInt H))
      image.rayOffsetY) image.rayScaleY,
   Float32.ofInt 0⟩

/-- The rectified pixel `(i, j)` in the specification's words (4.2, steps 3-5), read on the
values of the warped coordinates: with `(px, py) = warp(ray)`, the raw byte
`raw[floor(py) * w + floor(px)]` when `px` and `py` are numbers with `0 ≤ px < w` and
`0 ≤ py < h` (comparisons and index in exact arithmetic), and 255 otherwise. -/
def specPixel (W H : Nat) (image : Image) (i j : Nat) : Option Nat :=
  let px := (image.warp (image.ray W H i j)).x
  let py := (image.warp (image.ray W H i j)).y
  if px.isFinite = true ∧ py.isFinite = true ∧
      0 ≤ px.toRat ∧ px.toRat < image.width ∧ 0 ≤ py.toRat ∧ py.toRat < image.height then
    image.data[(⌊py.toRat⌋ * image.width + ⌊px.toRat⌋).toNat]?
  else some 255

/-- The brightness one camera computes at loop counters `(i, j)`: lines 91, 95-96, 103 and
107-115 of the loop body for the left image, lines 92, 99-100, 104 and 119-127 for the
right one. -/
def brightnessOf (W H : Nat) (image : Image) (i j : Nat) : Option Nat :=
  if inImage (image.warp (image.ray W H i j)) image then
    (index (image.warp (image.ray W H i j)) image).bind image.dataAt
  else some 255

/-- One iteration of the pixel loop restricted to one camera. -/
def rectifyStep (W H : Nat) (image : Image) (m : cv.Mat) (ij : Nat × Nat) : Option cv.Mat :=
  (brightnessOf W H image ij.1 ij.2).bind fun brightness => m.atSet ij.2 ij.1 brightness

/-- The pixel loop restricted to one camera. -/
def rectify (W H : Nat) (image : Image) : Option cv.Mat :=
  (pixelLoop W H).foldlM (rectifyStep W H image) (cv.Mat.create W H)

/-- Example input: a valid 1 × 1 raw image of value 42 whose warp sends every ray to
`(0, 0)`. -/
def image42 : Image :=
  { isValid := true, width := 1, height := 1, data := [42],
    rayOffsetX := Float32.finite 0, rayOffsetY := Float32.finite 0,
    rayScaleX := Float32.finite 1, rayScaleY := Float32.finite 1,
    warp := fun _ => ⟨Float32.finite 0, Float32.finite 0, Float32.finite 0⟩ }

/-- Example input: the coordinate `(4095.5, 4099.5)`. -/
def pixelLarge : Vector :=
  ⟨Float32.finite (8191 / 2), Float32.finite (8199 / 2), Float32.finite 0⟩

/-- Example input: a valid 4096 × 4100 raw image (16 793 600 bytes, all 7) whose warp
sends every ray to `(4095.5, 4099.5)`, inside the last raw pixel. -/
def imageLarge : Image :=
  { isValid := true, width := 4096, height := 4100,
    data := List.replicate (4096 * 4100) 7,
    rayOffsetX := Float32.finite 0, rayOffsetY := Float32.finite 0,
    rayScaleX := Float32.finite 1, rayScaleY := Float32.finite 1,
    warp := fun _ => pixelLarge }

end Binary32

/-! ## Supporting lemmas -/

theorem index_nonneg_of_inImage (pixel : Leap.Vector) (image : Leap.Image)
    (h : inImage pixel image) : 0 ≤ index pixel image := by
  obtain ⟨hx0, hxw, hy0, _⟩ := h
  have fx : 0 ≤ ⌊pixel.x⌋ := Int.floor_nonneg.mpr hx0
  have fy : 0 ≤ ⌊pixel.y⌋ := Int.floor_nonneg.mpr hy0
  have hw : (0 : Int) < image.width := by
    have : (0 : ℚ) < (image.width : ℚ) := lt_of_le_of_lt hx0 hxw
    exact_mod_cast this
  unfold index
  positivity

theorem index_lt_of_inImage (pixel : Leap.Vector) (image : Leap.Image)
    (h : inImage pixel image) : index pixel image < image.width * image.height := by
  obtain ⟨hx0, hxw, hy0, hyh⟩ := h
  have fxw : ⌊pixel.x⌋ < image.width := Int.floor_lt.mpr hxw
  have fyh : ⌊pixel.y⌋ < image.height := Int.floor_lt.mpr hyh
  have hw : (0 : Int) < image.width := by
    have : (0 : ℚ) < (image.width : ℚ) := lt_of_le_of_lt hx0 hxw
    exact_mod_cast this
  unfold index
  have h1 : ⌊pixel.y⌋ * image.width ≤ (image.height - 1) * image.width :=
    Int.mul_le_mul_of_nonneg_right (by omega) (le_of_lt hw)
  nlinarith

theorem dataAt_of_inImage (pixel : Leap.Vector) (image : Leap.Image)
    (hwf : image.WellFormed) (h : inImage pixel image) :
    ∃ v, image.dataAt (index pixel image) = some v := by
  have h0 := index_nonneg_of_inImage pixel image h
  have h1 := index_lt_of_inImage pixel image h
  unfold Leap.Image.WellFormed at hwf
  have hlt : (index pixel image).toNat < image.data.length := by omega
  refine ⟨image.data[(index pixel image).toNat], ?_⟩
  unfold Leap.Image.dataAt
  rw [if_pos h0]
  exact List.getElem?_eq_getElem hlt

namespace cv

theorem Mat.create_valid (rows cols : Nat) : (Mat.create rows cols).Valid := by
  refine ⟨le_refl _, ?_⟩
  intro r c hr hc
  simp only [Mat.create] at hr hc
  simp only [Mat.create, List.length_replicate]
  have : (r + 1) * cols ≤ rows * cols := Nat.mul_le_mul_right cols hr
  rw [Nat.add_mul] at this
  omega

theorem Mat.atSet_eq_some (m : Mat) (r c v : Nat) (hr : r < m.rows) (hc : c < m.cols) :
    m.atSet r c v =
      some { m with buf := m.buf.set (m.offset + r * m.step + c) (some v) } := by
  unfold Mat.atSet
  rw [if_pos ⟨hr, hc⟩]

theorem Mat.atSet_shape (m m' : Mat) (r c v : Nat) (h : m.atSet r c v = some m') :
    m'.rows = m.rows ∧ m'.cols = m.cols ∧ m'.step = m.step ∧ m'.offset = m.offset ∧
      m'.buf.length = m.buf.length := by
  unfold Mat.atSet at h
  split at h
  · cases h
    simp
  · cases h

theorem Mat.atSet_valid (m m' : Mat) (r c v : Nat) (hv : m.Valid)
    (h : m.atSet r c v = some m') : m'.Valid := by
  obtain ⟨h1, h2, h3, h4, h5⟩ := Mat.atSet_shape m m' r c v h
  unfold Mat.Valid at *
  rw [h1, h2, h3, h4, h5]
  exact hv

theorem offset_inj (step cols r c r' c' : Nat) (hs : cols ≤ step) (hc : c < cols)
    (hc' : c' < cols) (h : r * step + c = r' * step + c') : r = r' ∧ c = c' := by
  have hstep : 0 < step := by omega
  have e1 : (r * step + c) / step = r := by
    rw [Nat.add_comm, Nat.add_mul_div_right _ _ hstep, Nat.div_eq_of_lt (by omega)]; simp
  have e2 : (r' * step + c') / step = r' := by
    rw [Nat.add_comm, Nat.add_mul_div_right _ _ hstep, Nat.div_eq_of_lt (by omega)]; simp
  have hr : r = r' := by rw [← e1, ← e2, h]
  subst hr
  exact ⟨rfl, by omega⟩

theorem Mat.atGet_atSet (m m' : Mat) (r c v r' c' : Nat) (hv : m.Valid)
    (h : m.atSet r c v = some m') :
    m'.atGet r' c' = if r' = r ∧ c' = c then some v else m.atGet r' c' := by
  unfold Mat.atSet at h
  split at h
  · rename_i hrc
    cases h
    unfold Mat.atGet
    simp only
    by_cases hin : r' < m.rows ∧ c' < m.cols
    · rw [if_pos hin, if_pos hin]
      by_cases heq : r' = r ∧ c' = c
      · rw [if_pos heq]
        obtain ⟨rfl, rfl⟩ := heq
        rw [List.getElem?_set_self (hv.2 r' c' hin.1 hin.2)]
        rfl
      · rw [if_neg heq]
        have hne : m.offset + r * m.step + c ≠ m.offset + r' * m.step + c' := by
          intro e
          have := offset_inj m.step m.cols r c r' c' hv.1 hrc.2 hin.2 (by omega)
          exact heq ⟨this.1.symm, this.2.symm⟩
        rw [List.getElem?_set_ne hne]
    · rw [if_neg hin, if_neg hin]
      rw [if_neg]
      rintro ⟨rfl, rfl⟩
      exact hin hrc
  · cases h

end cv

theorem loopBody_eq (W H : Nat) (lImage rImage : Leap.Image) (i j : Nat) (s : Corrected) :
    loopBody W H lImage rImage i j s =
      (brightnessOf W H lImage i j).bind fun bl =>
      (s.lcCam.atSet j i bl).bind fun lcCam =>
      (brightnessOf W H rImage i j).bind fun br =>
      (s.rcCam.atSet j i br).bind fun rcCam =>
      some { lcCam := lcCam, rcCam := rcCam, brightness := some br } := rfl

theorem foldlM_fission {S A B X : Type} (F : S → X → Option S) (pa : S → A) (pb : S → B)
    (f : A → X → Option A) (g : B → X → Option B)
    (hF : ∀ s x, (F s x).map (fun t => (pa t, pb t)) =
      (f (pa s) x).bind fun a => (g (pb s) x).bind fun b => some (a, b)) :
    ∀ (xs : List X) (s : S), (xs.foldlM F s).map (fun t => (pa t, pb t)) =
      (xs.foldlM f (pa s)).bind fun a => (xs.foldlM g (pb s)).bind fun b => some (a, b) := by
  intro xs
  induction xs with
  | nil => intro s; rfl
  | cons x xs ih =>
    intro s
    rw [List.foldlM_cons, List.foldlM_cons, List.foldlM_cons]
    simp only [Option.bind_eq_bind]
    have h := hF s x
    cases hs : F s x with
    | none =>
      rw [hs] at h
      cases hf : f (pa s) x with
      | none => simp
      | some a =>
        rw [hf] at h
        cases hg : g (pb s) x with
        | none => simp
        | some b => rw [hg] at h; simp at h
    | some t =>
      rw [hs] at h
      cases hf : f (pa s) x with
      | none => rw [hf] at h; simp at h
      | some a =>
        rw [hf] at h
        cases hg : g (pb s) x with
        | none => rw [hg] at h; simp at h
        | some b =>
          rw [hg] at h
          have h2 : (pa t, pb t) = (a, b) := by simpa using h
          have ha : pa t = a := congrArg Prod.fst h2
          have hb : pb t = b := congrArg Prod.snd h2
          simp only [Option.some_bind]
          rw [ih t, ha, hb]

theorem loopBody_fission (W H : Nat) (lImage rImage : Leap.Image) (s : Corrected)
    (ij : Nat × Nat) :
    (loopBody W H lImage rImage ij.1 ij.2 s).map (fun t => (t.lcCam, t.rcCam)) =
      (rectifyStep W H lImage s.lcCam ij).bind fun a =>
        (rectifyStep W H rImage s.rcCam ij).bind fun b => some (a, b) := by
  rw [loopBody_eq]
  unfold rectifyStep
  cases brightnessOf W H lImage ij.1 ij.2 with
  | none => rfl
  | some bl =>
    simp only [Option.some_bind]
    cases s.lcCam.atSet ij.2 ij.1 bl with
    | none => rfl
    | some a =>
      simp only [Option.some_bind]
      cases brightnessOf W H rImage ij.1 ij.2 with
      | none => rfl
      | some br =>
        simp only [Option.some_bind]
        cases s.rcCam.atSet ij.2 ij.1 br with
        | none => rfl
        | some b => rfl

theorem correctWith_fission (W H : Nat) (lImage rImage : Leap.Image) :
    (correctWith W H lImage rImage).map (fun t => (t.lcCam, t.rcCam)) =
      (rectify W H lImage).bind fun a => (rectify W H rImage).bind fun b => some (a, b) := by
  have h := foldlM_fission (fun s (ij : Nat × Nat) => loopBody W H lImage rImage ij.1 ij.2 s)
    Corrected.lcCam Corrected.rcCam (rectifyStep W H lImage) (rectifyStep W H rImage)
    (fun s ij => loopBody_fission W H lImage rImage s ij) (pixelLoop W H)
    { lcCam := cv.Mat.create W H, rcCam := cv.Mat.create W H, brightness := none }
  exact h

theorem mem_pixelLoop (W H i j : Nat) : (i, j) ∈ pixelLoop W H ↔ i < W ∧ j < H := by
  unfold pixelLoop
  simp [List.mem_flatMap, List.mem_map, List.mem_range]

theorem brightnessOf_isSome (W H : Nat) (image : Leap.Image) (hwf : image.WellFormed)
    (i j : Nat) : ∃ v, brightnessOf W H image i j = some v := by
  unfold brightnessOf
  split
  · rename_i h
    exact dataAt_of_inImage _ image hwf h
  · exact ⟨255, rfl⟩

theorem rectifyStep_fold (W H : Nat) (image : Leap.Image) (hwf : image.WellFormed) :
    ∀ (ops : List (Nat × Nat)) (m : cv.Mat), m.Valid →
      (∀ ij ∈ ops, ij.2 < m.rows ∧ ij.1 < m.cols) →
      ∃ m', ops.foldlM (rectifyStep W H image) m = some m' ∧ m'.Valid ∧
        m'.rows = m.rows ∧ m'.cols = m.cols ∧ m'.step = m.step ∧ m'.offset = m.offset ∧
        ∀ r c, m'.atGet r c =
          if (c, r) ∈ ops then brightnessOf W H image c r else m.atGet r c := by
  intro ops
  induction ops with
  | nil =>
    intro m hv _
    exact ⟨m, rfl, hv, rfl, rfl, rfl, rfl, fun r c => by simp⟩
  | cons ij ops ih =>
    intro m hv hin
    obtain ⟨v, hb⟩ := brightnessOf_isSome W H image hwf ij.1 ij.2
    have hij := hin ij (List.mem_cons_self _ _)
    have hset := cv.Mat.atSet_eq_some m ij.2 ij.1 v hij.1 hij.2
    obtain ⟨s1, s2, s3, s4, _⟩ := cv.Mat.atSet_shape m _ ij.2 ij.1 v hset
    have hv1 := cv.Mat.atSet_valid m _ ij.2 ij.1 v hv hset
    obtain ⟨m', hm', hv', e1, e2, e3, e4, hget⟩ := ih _ hv1 (by
      intro kl hkl
      rw [s1, s2]
      exact hin kl (List.mem_cons_of_mem _ hkl))
    refine ⟨m', ?_, hv', e1.trans s1, e2.trans s2, e3.trans s3, e4.trans s4, ?_⟩
    · rw [List.foldlM_cons]
      show (rectifyStep W H image m ij).bind _ = _
      unfold rectifyStep
      rw [hb]
      show (m.atSet ij.2 ij.1 v).bind _ = _
      rw [hset]
      exact hm'
    · intro r c
      rw [hget r c, cv.Mat.atGet_atSet m _ ij.2 ij.1 v r c hv hset]
      by_cases hmem : (c, r) ∈ ops
      · rw [if_pos hmem, if_pos (List.mem_cons_of_mem _ hmem)]
      · rw [if_neg hmem]
        by_cases heq : r = ij.2 ∧ c = ij.1
        · obtain ⟨rfl, rfl⟩ := heq
          rw [if_pos ⟨rfl, rfl⟩, if_pos (List.mem_cons_self _ _), hb]
        · rw [if_neg heq, if_neg]
          intro hc
          rcases List.mem_cons.mp hc with h | h
          · exact heq ⟨congrArg Prod.snd h, congrArg Prod.fst h⟩
          · exact hmem h

theorem rectify_spec (n : Nat) (image : Leap.Image) (hwf : image.WellFormed) :
    ∃ m, rectify n n image = some m ∧ m.Valid ∧
      m.rows = n ∧ m.cols = n ∧ m.step = n ∧ m.offset = 0 ∧
      ∀ i j, i < n → j < n → m.atGet j i = brightnessOf n n image i j := by
  obtain ⟨m, hm, hv, e1, e2, e3, e4, hget⟩ :=
    rectifyStep_fold n n image hwf (pixelLoop n n) (cv.Mat.create n n)
      (cv.Mat.create_valid n n) (by
        intro ij hij
        have := (mem_pixelLoop n n ij.1 ij.2).mp hij
        exact ⟨this.2, this.1⟩)
  refine ⟨m, hm, hv, e1, e2, e3, e4, ?_⟩
  intro i j hi hj
  rw [hget j i, if_pos ((mem_pixelLoop n n i j).mpr ⟨hi, hj⟩)]

theorem correctWith_spec (n : Nat) (lImage rImage : Leap.Image)
    (hl : lImage.WellFormed) (hr : rImage.WellFormed) :
    ∃ s lc rc, correctWith n n lImage rImage = some s ∧
      rectify n n lImage = some lc ∧ rectify n n rImage = some rc ∧
      s.lcCam = lc ∧ s.rcCam = rc := by
  obtain ⟨lc, hlc, _⟩ := rectify_spec n lImage hl
  obtain ⟨rc, hrc, _⟩ := rectify_spec n rImage hr
  have h := correctWith_fission n n lImage rImage
  rw [hlc, hrc] at h
  cases hs : correctWith n n lImage rImage with
  | none => rw [hs] at h; cases h
  | some s =>
    rw [hs] at h
    have h2 : (s.lcCam, s.rcCam) = (lc, rc) := by simpa using h
    exact ⟨s, lc, rc, rfl, hlc, hrc, congrArg Prod.fst h2, congrArg Prod.snd h2⟩

/-! ## The correction of a frame -/

theorem CORR_HEIGHT_eq : CORR_HEIGHT = CORR_WIDTH := rfl

theorem brightnessOf_eq_specPixel (W H : Nat) (image : Leap.Image) (i j : Nat) :
    brightnessOf W H image i j = specPixel W H image i j := by
  unfold brightnessOf specPixel
  by_cases h : inImage (image.warp (image.ray W H i j)) image
  · have h0 := index_nonneg_of_inImage _ image h
    rw [if_pos h]
    unfold inImage at h
    simp only [ge_iff_le] at h
    simp only []
    rw [if_pos h]
    unfold Leap.Image.dataAt
    rw [if_pos h0]
    rfl
  · rw [if_neg h]
    unfold inImage at h
    simp only [ge_iff_le] at h
    simp only []
    rw [if_neg h]

/-- Both corrected matrices of a frame, for well-formed raw images: the loop finishes, each
matrix is the single-camera rectification of its own image, keeps the allocated shape
and holds at `(j, i)` the brightness computed at counters `(i, j)`. -/
theorem correct_spec (lImage rImage : Leap.Image)
    (hl : lImage.WellFormed) (hr : rImage.WellFormed) :
    ∃ s, correct lImage rImage = some s ∧
      rectify CORR_WIDTH CORR_HEIGHT lImage = some s.lcCam ∧
      rectify CORR_WIDTH CORR_HEIGHT rImage = some s.rcCam ∧
      (s.lcCam.rows = CORR_WIDTH ∧ s.lcCam.cols = CORR_HEIGHT) ∧
      (s.rcCam.rows = CORR_WIDTH ∧ s.rcCam.cols = CORR_HEIGHT) ∧
      (∀ i j, i < CORR_WIDTH → j < CORR_HEIGHT →
        s.lcCam.atGet j i = brightnessOf CORR_WIDTH CORR_HEIGHT lImage i j) ∧
      (∀ i j, i < CORR_WIDTH → j < CORR_HEIGHT →
        s.rcCam.atGet j i = brightnessOf CORR_WIDTH CORR_HEIGHT rImage i j) := by
  unfold correct
  rw [CORR_HEIGHT_eq]
  obtain ⟨s, lc, rc, hs, hlc, hrc, rfl, rfl⟩ :=
    correctWith_spec CORR_WIDTH lImage rImage hl hr
  obtain ⟨m, hm, _, l1, l2, _, _, lget⟩ := rectify_spec CORR_WIDTH lImage hl
  obtain ⟨m', hm', _, r1, r2, _, _, rget⟩ := rectify_spec CORR_WIDTH rImage hr
  rw [hlc] at hm
  rw [hrc] at hm'
  cases hm
  cases hm'
  exact ⟨s, hs, hlc, hrc, ⟨l1, l2⟩, ⟨r1, r2⟩, lget, rget⟩

/-! ## The 1 × 1 example image -/

theorem image42_wellFormed : image42.WellFormed := by
  unfold Leap.Image.WellFormed image42
  decide

theorem specPixel_image42 (i j : Nat) :
    specPixel CORR_WIDTH CORR_HEIGHT image42 i j = some 42 := by
  simp [specPixel, image42]

/-! ## C2 -/

theorem specPixel_identity (W H : Nat) (image : Leap.Image) (hid : IdentityCalibration image W H)
    (i j : Nat) (hi : i < W) (hj : j < H) :
    specPixel W H image i j = image.data[j * W + i]? := by
  obtain ⟨ox, oy, sx, sy, hwarp, hw, hh⟩ := hid
  have hW : (W : ℚ) ≠ 0 := by
    have : 0 < W := by omega
    exact_mod_cast this.ne'
  have hH : (H : ℚ) ≠ 0 := by
    have : 0 < H := by omega
    exact_mod_cast this.ne'
  have hx : (image.warp (image.ray W H i j)).x = (i : ℚ) := by
    rw [(hwarp _).1]
    simp only [Leap.Image.ray, ox, sx, hw]
    push_cast
    field_simp
  have hy : (image.warp (image.ray W H i j)).y = (j : ℚ) := by
    rw [(hwarp _).2]
    simp only [Leap.Image.ray, oy, sy, hh]
    push_cast
    field_simp
  unfold specPixel
  simp only [hx, hy, hw, hh]
  have hin : (0 : ℚ) ≤ (i : ℚ) ∧ (i : ℚ) < ((W : Int) : ℚ) ∧ (0 : ℚ) ≤ (j : ℚ) ∧
      (j : ℚ) < ((H : Int) : ℚ) := by
    refine ⟨by positivity, by exact_mod_cast hi, by positivity, by exact_mod_cast hj⟩
  rw [if_pos hin]
  have e : (⌊(j : ℚ)⌋ * (W : Int) + ⌊(i : ℚ)⌋).toNat = j * W + i := by
    rw [Int.floor_natCast, Int.floor_natCast]
    have : ((j : Int) * (W : Int) + (i : Int)) = ((j * W + i : Nat) : Int) := by push_cast; ring
    rw [this, Int.toNat_natCast]
  rw [e]

/-- C2: under identity calibration (offsets 0, scales 1, warp `(rx, ry) ↦ (rx * w, ry * h)`)
with a raw image of the output's size `W × H`, the rectified image equals the raw image
pixel for pixel: the correction of a frame finishes and, for every `i < W` and `j < H`,
row `j`, column `i` of that camera's rectified image is the raw byte `raw[j * W + i]`
(exact arithmetic). -/
theorem correct_identity (lImage rImage : Leap.Image)
    (hl : lImage.WellFormed) (hr : rImage.WellFormed) :
    ∃ s, correct lImage rImage = some s ∧
      (IdentityCalibration lImage CORR_WIDTH CORR_HEIGHT →
        ∀ i j, i < CORR_WIDTH → j < CORR_HEIGHT →
          ∃ v, lImage.data[j * CORR_WIDTH + i]? = some v ∧ s.lcCam.atGet j i = some v) ∧
      (IdentityCalibration rImage CORR_WIDTH CORR_HEIGHT →
        ∀ i j, i < CORR_WIDTH → j < CORR_HEIGHT →
          ∃ v, rImage.data[j * CORR_WIDTH + i]? = some v ∧ s.rcCam.atGet j i = some v) := by
  obtain ⟨s, hs, _, _, _, _, lget, rget⟩ := correct_spec lImage rImage hl hr
  refine ⟨s, hs, ?_, ?_⟩
  · intro hid i j hi hj
    obtain ⟨v, hv⟩ := brightnessOf_isSome CORR_WIDTH CORR_HEIGHT lImage hl i j
    refine ⟨v, ?_, ?_⟩
    · rw [← specPixel_identity CORR_WIDTH CORR_HEIGHT lImage hid i j hi hj,
        ← brightnessOf_eq_specPixel, hv]
    · rw [lget i j hi hj, hv]
  · intro hid i j hi hj
    obtain ⟨v, hv⟩ := brightnessOf_isSome CORR_WIDTH CORR_HEIGHT rImage hr i j
    refine ⟨v, ?_, ?_⟩
    · rw [← specPixel_identity CORR_WIDTH CORR_HEIGHT rImage hid i j hi hj,
        ← brightnessOf_eq_specPixel, hv]
    · rw [rget i j hi hj, hv]

theorem imageIdentity_wellFormed : imageIdentity.WellFormed := by
  unfold Leap.Image.WellFormed imageIdentity
  simp only [List.length_map, List.length_range]
  norm_num

theorem imageIdentity_identity : IdentityCalibration imageIdentity CORR_WIDTH CORR_HEIGHT := by
  unfold IdentityCalibration imageIdentity CORR_WIDTH CORR_HEIGHT
  refine ⟨rfl, rfl, rfl, rfl, ?_, rfl, rfl⟩
  intro v
  constructor <;> simp

theorem imageIdentity_data (k : Nat) (hk : k < 640 * 640) :
    imageIdentity.data[k]? = some (k % 256) := by
  unfold imageIdentity
  simp only [List.getElem?_map]
  rw [List.getElem?_range hk]
  rfl

/-- C2, witness: on the 640 × 640 identity-calibrated image whose byte `k` is `k % 256`,
the left rectified pixel at row 2, column 3 is byte `2 * 640 + 3`, that is 3. -/
theorem correct_identity_witness :
    imageIdentity.WellFormed ∧ image42.WellFormed ∧
    IdentityCalibration imageIdentity CORR_WIDTH CORR_HEIGHT ∧
    ∃ s, correct imageIdentity image42 = some s ∧ s.lcCam.atGet 2 3 = some 3 := by
  refine ⟨imageIdentity_wellFormed, image42_wellFormed, imageIdentity_identity, ?_⟩
  obtain ⟨s, hs, hleft, _⟩ :=
    correct_identity imageIdentity image42 imageIdentity_wellFormed image42_wellFormed
  obtain ⟨v, hv, hget⟩ := hleft imageIdentity_identity 3 2 (by decide) (by decide)
  have hd : imageIdentity.data[2 * CORR_WIDTH + 3]? = some 3 :=
    imageIdentity_data (2 * 640 + 3) (by norm_num)
  rw [hd] at hv
  cases hv
  exact ⟨s, hs, hget⟩

/-! ## C3 -/

theorem brightnessOf_outside (W H : Nat) (image : Leap.Image) (hout : WarpsOutside image)
    (i j : Nat) : brightnessOf W H image i j = some 255 := by
  unfold brightnessOf
  rw [if_neg (hout _)]

/-- C3: for well-formed raw images and any calibration, if a camera's warp returns a
coordinate outside `[0, w) × [0, h)` for every ray, then the correction of a frame finishes
and every pixel of that camera's rectified image is 255. -/
theorem correct_all_outside (lImage rImage : Leap.Image)
    (hl : lImage.WellFormed) (hr : rImage.WellFormed) :
    ∃ s, correct lImage rImage = some s ∧
      (WarpsOutside lImage →
        ∀ i j, i < CORR_WIDTH → j < CORR_HEIGHT → s.lcCam.atGet j i = some 255) ∧
      (WarpsOutside rImage →
        ∀ i j, i < CORR_WIDTH → j < CORR_HEIGHT → s.rcCam.atGet j i = some 255) := by
  obtain ⟨s, hs, _, _, _, _, lget, rget⟩ := correct_spec lImage rImage hl hr
  refine ⟨s, hs, ?_, ?_⟩
  · intro hout i j hi hj
    rw [lget i j hi hj, brightnessOf_outside _ _ _ hout]
  · intro hout i j hi hj
    rw [rget i j hi hj, brightnessOf_outside _ _ _ hout]

theorem imageOutside_wellFormed : imageOutside.WellFormed := by
  unfold Leap.Image.WellFormed imageOutside
  decide

theorem imageOutside_outside : WarpsOutside imageOutside := by
  intro v h
  have h1 : (imageOutside.warp v).x ≥ 0 := h.1
  simp only [imageOutside] at h1
  norm_num at h1

/-- C3, witness: a warp that sends every ray to `(-1/2, 0)`, half a pixel left of a 1 × 1
raw image, leaves the left rectified pixel at row 5, column 7 at 255. -/
theorem correct_all_outside_witness :
    imageOutside.WellFormed ∧ image42.WellFormed ∧ WarpsOutside imageOutside ∧
    ∃ s, correct imageOutside image42 = some s ∧ s.lcCam.atGet 5 7 = some 255 := by
  refine ⟨imageOutside_wellFormed, image42_wellFormed, imageOutside_outside, ?_⟩
  obtain ⟨s, hs, hleft, _⟩ :=
    correct_all_outside imageOutside image42 imageOutside_wellFormed image42_wellFormed
  exact ⟨s, hs, hleft imageOutside_outside 7 5 (by decide) (by decide)⟩

/-! ## C4 -/

/-- C4: for every image and every ROI `(x, y, width, height)` lying within it, the crop
succeeds with `height` rows and `width` columns, and its pixel at row `r`, column `c`
equals the image's pixel at row `y + r`, column `x + c`, for all `r < height` and
`c < width`; and cropping any image with the ROI `(0, 0, cols, rows)` returns that image. -/
theorem crop_spec (m : cv.Mat) (roi : cv.Rect) (h : m.contains roi) :
    (∃ cropped, m.crop roi = some cropped ∧
      (cropped.rows : Int) = roi.height ∧ (cropped.cols : Int) = roi.width ∧
      ∀ r c : Nat, (r : Int) < roi.height → (c : Int) < roi.width →
        cropped.atGet r c = m.atGet (roi.y.toNat + r) (roi.x.toNat + c)) ∧
    m.crop ⟨0, 0, m.cols, m.rows⟩ = some m := by
  obtain ⟨hx, hw, hxw, hy, hh, hyh⟩ := h
  constructor
  · refine ⟨_, if_pos ⟨hx, hw, hxw, hy, hh, hyh⟩, ?_, ?_, ?_⟩
    · exact Int.toNat_of_nonneg hh
    · exact Int.toNat_of_nonneg hw
    · intro r c hr hc
      unfold cv.Mat.atGet
      simp only
      have h1 : r < roi.height.toNat ∧ c < roi.width.toNat := by omega
      have h2 : roi.y.toNat + r < m.rows ∧ roi.x.toNat + c < m.cols := by omega
      rw [if_pos h1, if_pos h2]
      have e : m.offset + roi.y.toNat * m.step + roi.x.toNat + r * m.step + c =
          m.offset + (roi.y.toNat + r) * m.step + (roi.x.toNat + c) := by ring
      rw [e]
  · unfold cv.Mat.crop
    rw [if_pos]
    · simp
    · unfold cv.Mat.contains
      simp

theorem matExample_contains : matExample.contains ⟨1, 0, 2, 2⟩ := by
  unfold cv.Mat.contains matExample
  decide

/-- C4, witness: cropping the 2 × 3 example matrix with the ROI `(1, 0, 2, 2)` gives a
2 × 2 image whose pixel `(1, 0)` is the source pixel `(1, 1)`, namely 21, and cropping it
with the ROI `(0, 0, 3, 2)` returns the matrix itself. -/
theorem crop_spec_witness :
    matExample.contains ⟨1, 0, 2, 2⟩ ∧
    (∃ cropped, matExample.crop ⟨1, 0, 2, 2⟩ = some cropped ∧
      (cropped.rows : Int) = 2 ∧ (cropped.cols : Int) = 2 ∧ cropped.atGet 1 0 = some 21) ∧
    matExample.crop ⟨0, 0, 3, 2⟩ = some matExample := by
  obtain ⟨⟨cropped, hc, hrows, hcols, hget⟩, hfull⟩ :=
    crop_spec matExample ⟨1, 0, 2, 2⟩ matExample_contains
  refine ⟨matExample_contains, ⟨cropped, hc, hrows, hcols, ?_⟩, hfull⟩
  rw [hget 1 0 (by decide) (by decide)]
  decide

/-! ## C5 -/

theorem contains_of_within (m : cv.Mat) (roi : cv.Rect)
    (hrows : m.rows = CORR_WIDTH) (hcols : m.cols = CORR_HEIGHT)
    (hw : 0 ≤ roi.width) (hh : 0 ≤ roi.height)
    (h : roi.within CORR_WIDTH CORR_HEIGHT) : m.contains roi := by
  obtain ⟨hx, hy, hxw, hyh⟩ := h
  unfold cv.Mat.contains
  rw [hrows, hcols]
  unfold CORR_WIDTH CORR_HEIGHT at *
  exact ⟨hx, hw, hxw, hy, hh, hyh⟩

theorem not_contains_of_not_within (m : cv.Mat) (roi : cv.Rect)
    (hrows : m.rows = CORR_WIDTH) (hcols : m.cols = CORR_HEIGHT)
    (h : ¬ roi.within CORR_WIDTH CORR_HEIGHT) : ¬ m.contains roi := by
  intro hc
  apply h
  obtain ⟨hx, _, hxw, hy, _, hyh⟩ := hc
  rw [hrows] at hyh
  rw [hcols] at hxw
  unfold CORR_WIDTH CORR_HEIGHT at *
  exact ⟨hx, hy, hxw, hyh⟩

theorem lRoi_within : lRoi.within CORR_WIDTH CORR_HEIGHT := by
  unfold cv.Rect.within lRoi CORR_WIDTH CORR_HEIGHT
  decide

theorem rRoi_within : rRoi.within CORR_WIDTH CORR_HEIGHT := by
  unfold cv.Rect.within rRoi CORR_WIDTH CORR_HEIGHT
  decide

/-- A frame of valid, well-formed images with both ROIs inside the rectified image goes
through: it is corrected and both crops succeed. -/
theorem frameWith_processed (leftRoi rightRoi : cv.Rect) (lImage rImage : Leap.Image)
    (vl : lImage.isValid = true) (vr : rImage.isValid = true)
    (hl : lImage.WellFormed) (hr : rImage.WellFormed)
    (hlw : 0 ≤ leftRoi.width) (hlh : 0 ≤ leftRoi.height) (hlroi : leftRoi.within CORR_WIDTH CORR_HEIGHT)
    (hrw : 0 ≤ rightRoi.width) (hrh : 0 ≤ rightRoi.height) (hrroi : rightRoi.within CORR_WIDTH CORR_HEIGHT) :
    ∃ s lCropped rCropped, correct lImage rImage = some s ∧
      s.lcCam.crop leftRoi = some lCropped ∧ s.rcCam.crop rightRoi = some rCropped ∧
      frameWith leftRoi rightRoi lImage rImage =
        Frame.processed s.lcCam s.rcCam lCropped rCropped := by
  obtain ⟨s, hs, _, _, ⟨l1, l2⟩, ⟨r1, r2⟩, _, _⟩ := correct_spec lImage rImage hl hr
  have cl := contains_of_within s.lcCam leftRoi l1 l2 hlw hlh hlroi
  have cr := contains_of_within s.rcCam rightRoi r1 r2 hrw hrh hrroi
  obtain ⟨lCropped, hlc⟩ : ∃ c, s.lcCam.crop leftRoi = some c := ⟨_, if_pos cl⟩
  obtain ⟨rCropped, hrc⟩ : ∃ c, s.rcCam.crop rightRoi = some c := ⟨_, if_pos cr⟩
  refine ⟨s, lCropped, rCropped, hs, hlc, hrc, ?_⟩
  unfold frameWith
  simp only [vl, vr, hs, hlc, hrc, Bool.and_self, Bool.not_true, Bool.false_eq_true, if_false]

/-- C5: the left ROI `(100, 185, 402, 273)` and the right ROI `(110, 184, 402, 273)` both
satisfy `0 ≤ x`, `0 ≤ y`, `x + width ≤ W` and `y + height ≤ H` for `W = H = 640`, so that
for every frame of valid, well-formed images both crops succeed, inside the rectified
images the frame has just produced. -/
theorem rois_within (lImage rImage : Leap.Image)
    (vl : lImage.isValid = true) (vr : rImage.isValid = true)
    (hl : lImage.WellFormed) (hr : rImage.WellFormed) :
    CORR_WIDTH = 640 ∧ CORR_HEIGHT = 640 ∧
    lRoi = ⟨100, 185, 402, 273⟩ ∧ rRoi = ⟨110, 184, 402, 273⟩ ∧
    lRoi.within CORR_WIDTH CORR_HEIGHT ∧ rRoi.within CORR_WIDTH CORR_HEIGHT ∧
    ∃ s lCropped rCropped, correct lImage rImage = some s ∧
      s.lcCam.contains lRoi ∧ s.rcCam.contains rRoi ∧
      frame lImage rImage = Frame.processed s.lcCam s.rcCam lCropped rCropped := by
  refine ⟨rfl, rfl, rfl, rfl, lRoi_within, rRoi_within, ?_⟩
  obtain ⟨s, hs, _, _, ⟨l1, l2⟩, ⟨r1, r2⟩, _, _⟩ := correct_spec lImage rImage hl hr
  obtain ⟨s', lCropped, rCropped, hs', _, _, hf⟩ :=
    frameWith_processed lRoi rRoi lImage rImage vl vr hl hr
      (by unfold lRoi; decide) (by unfold lRoi; decide) lRoi_within
      (by unfold rRoi; decide) (by unfold rRoi; decide) rRoi_within
  rw [hs] at hs'
  cases hs'
  refine ⟨s, lCropped, rCropped, hs, ?_, ?_, hf⟩
  · exact contains_of_within s.lcCam lRoi l1 l2 (by unfold lRoi; decide)
      (by unfold lRoi; decide) lRoi_within
  · exact contains_of_within s.rcCam rRoi r1 r2 (by unfold rRoi; decide)
      (by unfold rRoi; decide) rRoi_within

/-- C5, witness: the frame made of the 1 × 1 example image on both cameras is processed,
with both ROIs inside the rectified images. -/
theorem rois_within_witness :
    image42.isValid = true ∧ image42.WellFormed ∧
    lRoi.within CORR_WIDTH CORR_HEIGHT ∧ rRoi.within CORR_WIDTH CORR_HEIGHT ∧
    ∃ s lCropped rCropped, correct image42 image42 = some s ∧
      frame image42 image42 = Frame.processed s.lcCam s.rcCam lCropped rCropped := by
  obtain ⟨_, _, _, _, h1, h2, s, lCropped, rCropped, hs, _, _, hf⟩ :=
    rois_within image42 image42 rfl rfl image42_wellFormed image42_wellFormed
  exact ⟨rfl, image42_wellFormed, h1, h2, s, lCropped, rCropped, hs, hf⟩

/-! ## C6 -/

/-- A frame of valid, well-formed images with a ROI outside the rectified image: the
frame is corrected in full, then the crop fails. -/
theorem frameWith_cropFailed (leftRoi rightRoi : cv.Rect) (lImage rImage : Leap.Image)
    (vl : lImage.isValid = true) (vr : rImage.isValid = true)
    (hl : lImage.WellFormed) (hr : rImage.WellFormed)
    (hroi : ¬ leftRoi.within CORR_WIDTH CORR_HEIGHT ∨ ¬ rightRoi.within CORR_WIDTH CORR_HEIGHT) :
    ∃ s, correct lImage rImage = some s ∧
      frameWith leftRoi rightRoi lImage rImage = Frame.cropFailed s.lcCam s.rcCam := by
  obtain ⟨s, hs, _, _, ⟨l1, l2⟩, ⟨r1, r2⟩, _, _⟩ := correct_spec lImage rImage hl hr
  refine ⟨s, hs, ?_⟩
  unfold frameWith
  simp only [vl, vr, hs, Bool.and_self, Bool.not_true, Bool.false_eq_true, if_false]
  rcases hroi with h | h
  · have hc : s.lcCam.crop leftRoi = none :=
      if_neg (not_contains_of_not_within s.lcCam leftRoi l1 l2 h)
    simp only [hc]
  · have hc : s.rcCam.crop rightRoi = none :=
      if_neg (not_contains_of_not_within s.rcCam rightRoi r1 r2 h)
    simp only [hc]
    cases s.lcCam.crop leftRoi <;> rfl

theorem roiOutside_not_within : ¬ roiOutside.within CORR_WIDTH CORR_HEIGHT := by
  unfold cv.Rect.within roiOutside CORR_WIDTH CORR_HEIGHT
  decide

/-- C6, counterexample: the left ROI `(600, 0, 402, 273)` does not lie within the 640 × 640
rectified image, yet nothing fails when it is configured: the first valid frame is
rectified (the correction finishes and left pixel `(0, 0)` is 42) and only then does the
crop fail. -/
theorem roi_outside_frame_rectified :
    ¬ roiOutside.within CORR_WIDTH CORR_HEIGHT ∧
    ∃ s, correct image42 image42 = some s ∧ s.lcCam.atGet 0 0 = some 42 ∧
      frameWith roiOutside rRoi image42 image42 = Frame.cropFailed s.lcCam s.rcCam := by
  refine ⟨roiOutside_not_within, ?_⟩
  obtain ⟨s, hs, hf⟩ := frameWith_cropFailed roiOutside rRoi image42 image42 rfl rfl
    image42_wellFormed image42_wellFormed (Or.inl roiOutside_not_within)
  obtain ⟨s', hs', _, _, _, _, lget, _⟩ :=
    correct_spec image42 image42 image42_wellFormed image42_wellFormed
  rw [hs] at hs'
  cases hs'
  refine ⟨s, hs, ?_, hf⟩
  rw [lget 0 0 (by decide) (by decide), brightnessOf_eq_specPixel, specPixel_image42]

/-- C6, amended: a ROI is not checked when it is configured. When the left or the right
ROI does not lie within the rectified image, every frame of valid, well-formed images is
first corrected in full (each pixel of both rectified images holds a value) and only then
does the crop fail: no cropped image is produced and the ROI is not clamped. -/
theorem roi_outside_fails_at_crop (leftRoi rightRoi : cv.Rect) (lImage rImage : Leap.Image)
    (vl : lImage.isValid = true) (vr : rImage.isValid = true)
    (hl : lImage.WellFormed) (hr : rImage.WellFormed)
    (hroi : ¬ leftRoi.within CORR_WIDTH CORR_HEIGHT ∨ ¬ rightRoi.within CORR_WIDTH CORR_HEIGHT) :
    ∃ s, correct lImage rImage = some s ∧
      (∀ i j, i < CORR_WIDTH → j < CORR_HEIGHT →
        (∃ v, s.lcCam.atGet j i = some v) ∧ (∃ v, s.rcCam.atGet j i = some v)) ∧
      frameWith leftRoi rightRoi lImage rImage = Frame.cropFailed s.lcCam s.rcCam := by
  obtain ⟨s, hs, hf⟩ := frameWith_cropFailed leftRoi rightRoi lImage rImage vl vr hl hr hroi
  obtain ⟨s', hs', _, _, _, _, lget, rget⟩ := correct_spec lImage rImage hl hr
  rw [hs] at hs'
  cases hs'
  refine ⟨s, hs, ?_, hf⟩
  intro i j hi hj
  rw [lget i j hi hj, rget i j hi hj]
  exact ⟨brightnessOf_isSome _ _ lImage hl i j, brightnessOf_isSome _ _ rImage hr i j⟩

/-- C6, witness of the amended claim: with the left ROI `(600, 0, 402, 273)` the frame of
the 1 × 1 example image is corrected and then fails at the crop. -/
theorem roi_outside_fails_at_crop_witness :
    image42.isValid = true ∧ image42.WellFormed ∧
    (¬ roiOutside.within CORR_WIDTH CORR_HEIGHT ∨ ¬ rRoi.within CORR_WIDTH CORR_HEIGHT) ∧
    ∃ s, correct image42 image42 = some s ∧
      (∀ i j, i < CORR_WIDTH → j < CORR_HEIGHT →
        (∃ v, s.lcCam.atGet j i = some v) ∧ (∃ v, s.rcCam.atGet j i = some v)) ∧
      frameWith roiOutside rRoi image42 image42 = Frame.cropFailed s.lcCam s.rcCam :=
  ⟨rfl, image42_wellFormed, Or.inl roiOutside_not_within,
    roi_outside_fails_at_crop roiOutside rRoi image42 image42 rfl rfl
      image42_wellFormed image42_wellFormed (Or.inl roiOutside_not_within)⟩

/-! ## C7 -/

theorem pixelLoop_nodup (W H : Nat) : (pixelLoop W H).Nodup :=
  List.Nodup.product (List.nodup_range W) (List.nodup_range H)

theorem writeTargets_nodup (W H : Nat) : (writeTargets W H).Nodup := by
  unfold writeTargets
  apply List.Nodup.map _ (pixelLoop_nodup W H)
  intro a b hab
  have h1 : a.2 = b.2 := congrArg Prod.fst hab
  have h2 : a.1 = b.1 := congrArg Prod.snd hab
  exact Prod.ext h2 h1

theorem mem_writeTargets (W H row col : Nat) :
    (row, col) ∈ writeTargets W H ↔ col < W ∧ row < H := by
  unfold writeTargets
  rw [List.mem_map]
  constructor
  · rintro ⟨ij, hij, heq⟩
    have h1 : ij.2 = row := congrArg Prod.fst heq
    have h2 : ij.1 = col := congrArg Prod.snd heq
    rw [← h1, ← h2]
    exact (mem_pixelLoop W H ij.1 ij.2).mp hij
  · intro h
    exact ⟨(col, row), (mem_pixelLoop W H col row).mpr h, rfl⟩

theorem countP_eq_one_of_nodup (a : Nat × Nat) : ∀ (l : List (Nat × Nat)), l.Nodup →
    a ∈ l → l.countP (fun t => decide (t.1 = a.1 ∧ t.2 = a.2)) = 1 := by
  intro l
  induction l with
  | nil => intro _ hm; cases hm
  | cons x xs ih =>
    intro hn hm
    obtain ⟨hx, hxs⟩ := List.nodup_cons.mp hn
    rw [List.countP_cons]
    by_cases hxa : x = a
    · subst hxa
      have h0 : xs.countP (fun t => decide (t.1 = x.1 ∧ t.2 = x.2)) = 0 := by
        rw [List.countP_eq_zero]
        intro t ht hp
        have : t = x := Prod.ext (of_decide_eq_true hp).1 (of_decide_eq_true hp).2
        exact hx (this ▸ ht)
      rw [h0]
      simp
    · have hmem : a ∈ xs := by
        rcases List.mem_cons.mp hm with h | h
        · exact absurd h.symm hxa
        · exact h
      rw [ih hxs hmem]
      have : ¬ (x.1 = a.1 ∧ x.2 = a.2) := fun h => hxa (Prod.ext h.1 h.2)
      simp [this]

/-- C9: each rectified matrix is allocated with `CORR_WIDTH` rows and `CORR_HEIGHT`
columns, while the loop writes at row `j`, column `i` for `i < CORR_WIDTH` and
`j < CORR_HEIGHT`. For the configured constants (640, 640) every write is inside the
matrix, every cell of the matrix is the target of exactly one write per frame, and
after the correction of a frame of well-formed images every cell of both matrices
holds a value. -/
theorem every_pixel_written_once (lImage rImage : Leap.Image)
    (hl : lImage.WellFormed) (hr : rImage.WellFormed) :
    CORR_WIDTH = 640 ∧ CORR_HEIGHT = 640 ∧
    (cv.Mat.create CORR_WIDTH CORR_HEIGHT).rows = CORR_WIDTH ∧
    (cv.Mat.create CORR_WIDTH CORR_HEIGHT).cols = CORR_HEIGHT ∧
    (∀ target ∈ writeTargets CORR_WIDTH CORR_HEIGHT,
      target.1 < (cv.Mat.create CORR_WIDTH CORR_HEIGHT).rows ∧
      target.2 < (cv.Mat.create CORR_WIDTH CORR_HEIGHT).cols) ∧
    (∀ row col, row < (cv.Mat.create CORR_WIDTH CORR_HEIGHT).rows →
      col < (cv.Mat.create CORR_WIDTH CORR_HEIGHT).cols →
      (writeTargets CORR_WIDTH CORR_HEIGHT).countP
        (fun target => decide (target.1 = row ∧ target.2 = col)) = 1) ∧
    ∃ s, correct lImage rImage = some s ∧
      s.lcCam.rows = CORR_WIDTH ∧ s.lcCam.cols = CORR_HEIGHT ∧
      s.rcCam.rows = CORR_WIDTH ∧ s.rcCam.cols = CORR_HEIGHT ∧
      ∀ row col, row < CORR_WIDTH → col < CORR_HEIGHT →
        (∃ v, s.lcCam.atGet row col = some v) ∧ (∃ v, s.rcCam.atGet row col = some v) := by
  refine ⟨rfl, rfl, rfl, rfl, ?_, ?_, ?_⟩
  · intro target ht
    have h := (mem_writeTargets CORR_WIDTH CORR_HEIGHT target.1 target.2).mp ht
    show target.1 < CORR_WIDTH ∧ target.2 < CORR_HEIGHT
    rw [CORR_HEIGHT_eq] at h ⊢
    exact ⟨h.2, h.1⟩
  · intro row col hrow hcol
    have hrow' : row < CORR_WIDTH := hrow
    have hcol' : col < CORR_HEIGHT := hcol
    apply countP_eq_one_of_nodup (row, col) _ (writeTargets_nodup _ _)
    apply (mem_writeTargets CORR_WIDTH CORR_HEIGHT row col).mpr
    rw [CORR_HEIGHT_eq] at hcol' ⊢
    exact ⟨hcol', hrow'⟩
  · obtain ⟨s, hs, _, _, ⟨l1, l2⟩, ⟨r1, r2⟩, lget, rget⟩ := correct_spec lImage rImage hl hr
    refine ⟨s, hs, l1, l2, r1, r2, ?_⟩
    intro row col hrow hcol
    have hcol' : col < CORR_WIDTH := by rw [← CORR_HEIGHT_eq]; exact hcol
    have hrow' : row < CORR_HEIGHT := by rw [CORR_HEIGHT_eq]; exact hrow
    rw [lget col row hcol' hrow', rget col row hcol' hrow']
    exact ⟨brightnessOf_isSome _ _ lImage hl col row, brightnessOf_isSome _ _ rImage hr col row⟩

/-- C9, witness: the frame made of the 1 × 1 example image on both cameras; the last cell
`(639, 639)` is the target of exactly one write and holds a value afterwards. -/
theorem every_pixel_written_once_witness :
    image42.WellFormed ∧
    (writeTargets CORR_WIDTH CORR_HEIGHT).countP
      (fun target => decide (target.1 = 639 ∧ target.2 = 639)) = 1 ∧
    ∃ s, correct image42 image42 = some s ∧
      (∃ v, s.lcCam.atGet 639 639 = some v) ∧ (∃ v, s.rcCam.atGet 639 639 = some v) := by
  obtain ⟨_, _, _, _, _, hcount, s, hs, _, _, _, _, hget⟩ :=
    every_pixel_written_once image42 image42 image42_wellFormed image42_wellFormed
  exact ⟨image42_wellFormed, hcount 639 639 (by decide) (by decide), s, hs,
    hget 639 639 (by decide) (by decide)⟩

/-- The allocation only fits the write pattern because the two macros are equal: with
`CORR_WIDTH = 1` and `CORR_HEIGHT = 2` the write at row 1 leaves the one-row matrix. -/
theorem correctWith_one_by_two : correctWith 1 2 imageOutside imageOutside = none := by
  have h : WarpsOutside imageOutside := imageOutside_outside
  unfold correctWith
  have hp : pixelLoop 1 2 = [(0, 0), (0, 1)] := rfl
  rw [hp]
  simp only [List.foldlM_cons, loopBody_eq, brightnessOf_outside 1 2 imageOutside h]
  rfl

/-! ## Single precision: exact cases of the arithmetic -/

namespace Float32

theorem roundHalfEven_intCast (z : ℤ) : roundHalfEven (z : ℚ) = z := by
  unfold roundHalfEven
  rw [Int.floor_intCast, sub_self, if_pos (by norm_num)]

theorem roundHalfEven_nonneg (x : ℚ) (hx : 0 ≤ x) : 0 ≤ roundHalfEven x := by
  have h : 0 ≤ ⌊x⌋ := Int.floor_nonneg.mpr hx
  unfold roundHalfEven
  split
  · exact h
  · split
    · omega
    · split
      · exact h
      · omega

theorem roundMag_nonneg (m : ℚ) (hm : 0 ≤ m) : 0 ≤ roundMag m := by
  unfold roundMag
  have hulp : (0 : ℚ) < 2 ^ (max (Int.log 2 m) (-126) - 23) := zpow_pos (by norm_num) _
  have h1 : 0 ≤ roundHalfEven (m / 2 ^ (max (Int.log 2 m) (-126) - 23)) :=
    roundHalfEven_nonneg _ (div_nonneg hm hulp.le)
  have h2 : (0 : ℚ) ≤ (roundHalfEven (m / 2 ^ (max (Int.log 2 m) (-126) - 23)) : ℚ) := by
    exact_mod_cast h1
  exact mul_nonneg h2 hulp.le

/-- A magnitude that is an integer multiple of its unit in the last place is kept. -/
theorem roundMag_of_multiple (m : ℚ) (z : ℤ)
    (h : m = z * 2 ^ (max (Int.log 2 m) (-126) - 23)) : roundMag m = m := by
  have hulp : (2 : ℚ) ^ (max (Int.log 2 m) (-126) - 23) ≠ 0 :=
    (zpow_pos (by norm_num : (0 : ℚ) < 2) _).ne'
  have hdiv : m / 2 ^ (max (Int.log 2 m) (-126) - 23) = z := by
    rw [div_eq_iff hulp]
    exact h
  unfold roundMag
  rw [hdiv, roundHalfEven_intCast]
  exact h.symm

/-- Natural numbers up to `2 ^ 24` are binary32 numbers. -/
theorem roundMag_natCast (n : ℕ) (hn : n ≤ 2 ^ 24) : roundMag (n : ℚ) = n := by
  have hlog : Int.log 2 (n : ℚ) = (Nat.log 2 n : ℤ) := Int.log_natCast 2 n
  have hle : Nat.log 2 n ≤ 24 := by
    calc Nat.log 2 n ≤ Nat.log 2 (2 ^ 24) := Nat.log_mono_right hn
      _ = 24 := Nat.log_pow (by norm_num) 24
  have hmax : max (Int.log 2 (n : ℚ)) (-126) = (Nat.log 2 n : ℤ) := by
    rw [hlog]
    omega
  by_cases h24 : Nat.log 2 n = 24
  · have hne : n ≠ 0 := by
      intro h0
      rw [h0] at h24
      simp at h24
    have hge : 2 ^ 24 ≤ n := by
      have := Nat.pow_log_le_self 2 hne
      rw [h24] at this
      exact this
    have hn' : n = 2 ^ 24 := le_antisymm hn hge
    apply roundMag_of_multiple _ (2 ^ 23)
    rw [hmax, h24, hn']
    norm_num
  · have hlt : Nat.log 2 n ≤ 23 := by omega
    apply roundMag_of_multiple _ ((n * 2 ^ (23 - Nat.log 2 n) : ℕ) : ℤ)
    rw [hmax]
    have e : ((Nat.log 2 n : ℤ) - 23) = -((23 - Nat.log 2 n : ℕ) : ℤ) := by omega
    rw [e, zpow_neg, zpow_natCast]
    push_cast
    field_simp

theorem make_natCast (negative : Bool) (n : ℕ) (hn : n ≤ 2 ^ 24) :
    make negative (n : ℚ) =
      if n = 0 then (if negative then negZero else finite 0)
      else finite (if negative then -(n : ℚ) else n) := by
  unfold make
  rw [roundMag_natCast n hn]
  have hlt : ¬ ((2 : ℚ) ^ 128 ≤ (n : ℚ)) := by
    have h1 : (n : ℚ) ≤ 2 ^ 24 := by exact_mod_cast hn
    intro h2
    have : (2 : ℚ) ^ 128 ≤ 2 ^ 24 := le_trans h2 h1
    norm_num at this
  rw [if_neg hlt]
  by_cases h0 : n = 0
  · rw [if_pos h0, if_pos (by exact_mod_cast h0)]
  · rw [if_neg h0, if_neg (by exact_mod_cast h0)]

/-- The conversion of an `int` of magnitude at most `2 ^ 24` is exact. -/
theorem ofInt_exact (z : ℤ) (hz : |z| ≤ 2 ^ 24) : ofInt z = finite (z : ℚ) := by
  unfold ofInt
  have hcast : ((z.natAbs : ℕ) : ℚ) = |(z : ℚ)| := by
    rw [← Int.cast_abs, ← Int.natCast_natAbs z, Int.cast_natCast]
  have hn : z.natAbs ≤ 2 ^ 24 := by
    have := Int.natCast_natAbs z
    omega
  rw [← hcast, make_natCast _ _ hn]
  by_cases h0 : z = 0
  · subst h0
    simp
  · have hne : z.natAbs ≠ 0 := by simpa using h0
    rw [if_neg hne, hcast]
    by_cases hneg : z < 0
    · have hq : (z : ℚ) < 0 := by exact_mod_cast hneg
      rw [decide_eq_true hneg, if_pos rfl, abs_of_neg hq, neg_neg]
    · have hq : (0 : ℚ) ≤ (z : ℚ) := by exact_mod_cast (not_lt.mp hneg)
      rw [decide_eq_false hneg, if_neg (by simp), abs_of_nonneg hq]

/-- The conversion of a non-positive `int` is not above zero. -/
theorem ofInt_nonpos (z : ℤ) (hz : z ≤ 0) :
    ofInt z ≠ inf false ∧ ofInt z ≠ nan ∧ (ofInt z).toRat ≤ 0 := by
  by_cases h0 : z = 0
  · subst h0
    rw [ofInt_exact 0 (by norm_num)]
    simp [toRat]
  · have hneg : z < 0 := lt_of_le_of_ne hz h0
    have hr := roundMag_nonneg |(z : ℚ)| (abs_nonneg _)
    unfold ofInt make
    rw [decide_eq_true hneg]
    split
    · simp [toRat]
    · split
      · simp [toRat]
      · refine ⟨by simp, by simp, ?_⟩
        simp only [toRat, if_true]
        linarith

/-- A number that passes `x >= 0` and `x < bound` for a finite bound is a zero or finite
number with value in `[0, bound)`. -/
theorem range_of_ge_of_lt (x : Float32) (bound : ℚ)
    (h0 : ge x (finite 0) = true) (h1 : lt x (finite bound) = true) :
    (x = negZero ∨ x = finite x.toRat) ∧ 0 ≤ x.toRat ∧ x.toRat < bound := by
  cases x with
  | nan => simp [ge] at h0
  | inf negative =>
    cases negative
    · simp [lt] at h1
    · simp [ge] at h0
  | negZero =>
    refine ⟨Or.inl rfl, le_refl _, ?_⟩
    simpa [lt, toRat] using h1
  | finite value =>
    refine ⟨Or.inr rfl, ?_, ?_⟩
    · simpa [ge, toRat] using h0
    · simpa [lt, toRat] using h1

/-- Nothing passes `x >= 0` and `x < bound` when the bound is not above zero. -/
theorem not_lt_of_ge_zero (x bound : Float32) (hb1 : bound ≠ inf false) (hb2 : bound ≠ nan)
    (hb3 : bound.toRat ≤ 0) (h0 : ge x (finite 0) = true) : lt x bound = false := by
  cases x with
  | nan => simp [ge] at h0
  | inf negative =>
    cases negative
    · cases bound with
      | nan => rfl
      | inf b => simp [lt]
      | negZero => simp [lt]
      | finite v => simp [lt]
    · simp [ge] at h0
  | negZero =>
    cases bound with
    | nan => rfl
    | inf b =>
      cases b
      · exact absurd rfl hb1
      · simp [lt]
    | negZero => simp [lt, toRat]
    | finite v =>
      simp only [toRat] at hb3
      simp [lt, toRat, hb3]
  | finite value =>
    have hv : 0 ≤ value := by simpa [ge, toRat] using h0
    cases bound with
    | nan => rfl
    | inf b =>
      cases b
      · exact absurd rfl hb1
      · simp [lt]
    | negZero => simp [lt, toRat, hv]
    | finite v =>
      simp only [toRat] at hb3
      simp only [lt, toRat, decide_eq_false_iff_not, not_lt]
      linarith

end Float32

namespace Float32

theorem floor_isNat (x : Float32) (hx : x = negZero ∨ x = finite x.toRat)
    (h0 : 0 ≤ x.toRat) : IsNat (floor x) ⌊x.toRat⌋.toNat := by
  rcases hx with h | h
  · rw [h]
    left
    exact ⟨rfl, by simp [toRat]⟩
  · right
    rw [h]
    simp only [floor, toRat]
    congr 1
    have hf : 0 ≤ ⌊x.toRat⌋ := Int.floor_nonneg.mpr h0
    have : ((⌊x.toRat⌋.toNat : ℕ) : ℤ) = ⌊x.toRat⌋ := Int.toNat_of_nonneg hf
    exact_mod_cast this.symm

theorem natCast_not_neg (n : ℕ) : decide ((n : ℚ) < 0) = false := by
  rw [decide_eq_false_iff_not, not_lt]
  exact Nat.cast_nonneg n

theorem mul_finite_finite (a b : ℚ) :
    mul (finite a) (finite b) = make (xor (decide (a < 0)) (decide (b < 0))) |a * b| := rfl

theorem mul_negZero_finite (b : ℚ) :
    mul negZero (finite b) = make (xor true (decide (b < 0))) |0 * b| := rfl

theorem mul_finite_negZero (a : ℚ) :
    mul (finite a) negZero = make (xor (decide (a < 0)) true) |a * 0| := rfl

theorem mul_negZero_negZero : mul negZero negZero = make (xor true true) |0 * 0| := rfl

theorem add_finite_finite (a b : ℚ) :
    add (finite a) (finite b) =
      if a + b = 0 then (if decide (a < 0) && decide (b < 0) then negZero else finite 0)
      else make (decide (a + b < 0)) |a + b| := rfl

theorem add_negZero_finite (b : ℚ) :
    add negZero (finite b) =
      if 0 + b = 0 then (if true && decide (b < 0) then negZero else finite 0)
      else make (decide (0 + b < 0)) |0 + b| := rfl

theorem add_finite_negZero (a : ℚ) :
    add (finite a) negZero =
      if a + 0 = 0 then (if decide (a < 0) && true then negZero else finite 0)
      else make (decide (a + 0 < 0)) |a + 0| := rfl

theorem add_negZero_negZero : add negZero negZero = negZero := by
  simp [add, signBit, toRat]

theorem make_zero (negative : Bool) :
    make negative 0 = if negative then negZero else finite 0 := by
  have h := make_natCast negative 0 (by norm_num)
  rw [if_pos rfl] at h
  rw [← h]
  norm_num

theorem make_natCast_pos (n : ℕ) (hn : n ≤ 2 ^ 24) : make false (n : ℚ) = finite (n : ℚ) := by
  rw [make_natCast false n hn]
  by_cases h0 : n = 0
  · rw [if_pos h0, h0]
    simp
  · rw [if_neg h0]
    simp

theorem mul_isNat (x y : Float32) (a b : ℕ) (hx : IsNat x a) (hy : IsNat y b)
    (hab : a * b ≤ 2 ^ 24) : IsNat (mul x y) (a * b) := by
  rcases hx with ⟨rfl, rfl⟩ | rfl <;> rcases hy with ⟨rfl, rfl⟩ | rfl
  · right
    rw [mul_negZero_negZero, zero_mul, abs_zero, make_zero]
    simp
  · left
    rw [mul_negZero_finite, natCast_not_neg, zero_mul, abs_zero, make_zero]
    exact ⟨rfl, by simp⟩
  · left
    rw [mul_finite_negZero, natCast_not_neg, mul_zero, abs_zero, make_zero]
    exact ⟨rfl, by simp⟩
  · right
    have habs : |(a : ℚ) * (b : ℚ)| = ((a * b : ℕ) : ℚ) := by
      rw [abs_of_nonneg (by positivity)]
      push_cast
      rfl
    rw [mul_finite_finite, natCast_not_neg, natCast_not_neg, habs]
    exact make_natCast_pos _ hab

theorem add_isNat (x y : Float32) (a b : ℕ) (hx : IsNat x a) (hy : IsNat y b)
    (hab : a + b ≤ 2 ^ 24) : IsNat (add x y) (a + b) := by
  have key : ∀ n : ℕ, n ≤ 2 ^ 24 →
      (if (n : ℚ) = 0 then finite 0 else make false |(n : ℚ)|) = finite (n : ℚ) := by
    intro n hn
    by_cases h0 : (n : ℚ) = 0
    · rw [if_pos h0, h0]
    · rw [if_neg h0, abs_of_nonneg (Nat.cast_nonneg n)]
      exact make_natCast_pos n hn
  rcases hx with ⟨rfl, rfl⟩ | rfl <;> rcases hy with ⟨rfl, rfl⟩ | rfl
  · left
    exact ⟨add_negZero_negZero, rfl⟩
  · right
    rw [add_negZero_finite, zero_add, natCast_not_neg, Bool.and_false]
    simp only [Bool.false_eq_true, if_false]
    rw [key b (by omega), Nat.zero_add]
  · right
    rw [add_finite_negZero, add_zero, natCast_not_neg, Bool.false_and]
    simp only [Bool.false_eq_true, if_false]
    rw [key a (by omega), Nat.add_zero]
  · right
    have hcast : (a : ℚ) + (b : ℚ) = ((a + b : ℕ) : ℚ) := by push_cast; rfl
    rw [add_finite_finite, natCast_not_neg, Bool.false_and]
    simp only [Bool.false_eq_true, if_false]
    rw [hcast, natCast_not_neg, key (a + b) hab]

theorem toInt_isNat (x : Float32) (n : ℕ) (hx : IsNat x n) (hn : n < 2 ^ 31) :
    toInt x = some (n : ℤ) := by
  rcases hx with ⟨rfl, rfl⟩ | rfl
  · rfl
  · simp only [toInt]
    have hneg : ¬ ((n : ℚ) < 0) := not_lt.mpr (Nat.cast_nonneg n)
    simp only [if_neg hneg, Int.floor_natCast]
    rw [if_pos]
    constructor
    · have : (0 : ℤ) ≤ n := Int.natCast_nonneg n
      omega
    · exact_mod_cast hn

end Float32

namespace Binary32

/-- Width and height of the raw image are positive once a pixel passes the test. -/
theorem size_pos_of_inImage (pixel : Vector) (image : Image) (hin : inImage pixel image) :
    0 < image.width ∧ 0 < image.height := by
  obtain ⟨hx0, hxw, hy0, hyh⟩ := hin
  have e0 : Float32.ofInt 0 = Float32.finite 0 := by
    have := Float32.ofInt_exact 0 (by norm_num)
    simpa using this
  rw [e0] at hx0 hy0
  constructor
  · by_contra hw
    obtain ⟨h1, h2, h3⟩ := Float32.ofInt_nonpos image.width (not_lt.mp hw)
    rw [Float32.not_lt_of_ge_zero _ _ h1 h2 h3 hx0] at hxw
    cases hxw
  · by_contra hh
    obtain ⟨h1, h2, h3⟩ := Float32.ofInt_nonpos image.height (not_lt.mp hh)
    rw [Float32.not_lt_of_ge_zero _ _ h1 h2 h3 hy0] at hyh
    cases hyh

/-- For a raw image of at most `2 ^ 24` pixels the test and the index are exact: a pixel
that passes the test has finite coordinates with `0 ≤ px < w` and `0 ≤ py < h`, and the
`float` evaluation of the index yields the integer `floor(py) * w + floor(px)`. -/
theorem index_exact (pixel : Vector) (image : Image)
    (hsize : image.width * image.height ≤ 2 ^ 24) (hin : inImage pixel image) :
    (pixel.x.isFinite = true ∧ pixel.y.isFinite = true) ∧
    0 ≤ pixel.x.toRat ∧ pixel.x.toRat < image.width ∧
    0 ≤ pixel.y.toRat ∧ pixel.y.toRat < image.height ∧
    index pixel image = some (⌊pixel.y.toRat⌋ * image.width + ⌊pixel.x.toRat⌋) := by
  obtain ⟨hw, hh⟩ := size_pos_of_inImage pixel image hin
  obtain ⟨hx0, hxw, hy0, hyh⟩ := hin
  have e0 : Float32.ofInt 0 = Float32.finite 0 := by
    have := Float32.ofInt_exact 0 (by norm_num)
    simpa using this
  have hw24 : image.width ≤ 2 ^ 24 := by nlinarith
  have hh24 : image.height ≤ 2 ^ 24 := by nlinarith
  have ew : Float32.ofInt image.width = Float32.finite (image.width : ℚ) :=
    Float32.ofInt_exact _ (by rw [abs_of_pos hw]; exact hw24)
  have eh : Float32.ofInt image.height = Float32.finite (image.height : ℚ) :=
    Float32.ofInt_exact _ (by rw [abs_of_pos hh]; exact hh24)
  rw [e0] at hx0 hy0
  rw [ew] at hxw
  rw [eh] at hyh
  obtain ⟨fx, x0, xw⟩ := Float32.range_of_ge_of_lt _ _ hx0 hxw
  obtain ⟨fy, y0, yh⟩ := Float32.range_of_ge_of_lt _ _ hy0 hyh
  have finx : pixel.x.isFinite = true := by
    rcases fx with h | h <;> rw [h] <;> rfl
  have finy : pixel.y.isFinite = true := by
    rcases fy with h | h <;> rw [h] <;> rfl
  refine ⟨⟨finx, finy⟩, x0, xw, y0, yh, ?_⟩
  have hfx0 : 0 ≤ ⌊pixel.x.toRat⌋ := Int.floor_nonneg.mpr x0
  have hfy0 : 0 ≤ ⌊pixel.y.toRat⌋ := Int.floor_nonneg.mpr y0
  have hfxw : ⌊pixel.x.toRat⌋ < image.width := Int.floor_lt.mpr xw
  have hfyh : ⌊pixel.y.toRat⌋ < image.height := Int.floor_lt.mpr yh
  have nx := Float32.floor_isNat pixel.x fx x0
  have ny := Float32.floor_isNat pixel.y fy y0
  have nw : Float32.IsNat (Float32.ofInt image.width) image.width.toNat := by
    right
    rw [ew]
    congr 1
    have : ((image.width.toNat : ℕ) : ℤ) = image.width := Int.toNat_of_nonneg hw.le
    exact_mod_cast this.symm
  have hprod : ⌊pixel.y.toRat⌋ * image.width ≤ (image.height - 1) * image.width :=
    Int.mul_le_mul_of_nonneg_right (by omega) hw.le
  have hsum : ⌊pixel.y.toRat⌋ * image.width + ⌊pixel.x.toRat⌋ < image.width * image.height := by
    nlinarith
  have hprod_nat : ((⌊pixel.y.toRat⌋.toNat * image.width.toNat : ℕ) : ℤ) =
      ⌊pixel.y.toRat⌋ * image.width := by
    push_cast
    rw [Int.toNat_of_nonneg hfy0, Int.toNat_of_nonneg hw.le]
  have hsum_nat : ((⌊pixel.y.toRat⌋.toNat * image.width.toNat + ⌊pixel.x.toRat⌋.toNat : ℕ) : ℤ) =
      ⌊pixel.y.toRat⌋ * image.width + ⌊pixel.x.toRat⌋ := by
    push_cast
    rw [Int.toNat_of_nonneg hfy0, Int.toNat_of_nonneg hw.le, Int.toNat_of_nonneg hfx0]
  have hbound : ⌊pixel.y.toRat⌋.toNat * image.width.toNat + ⌊pixel.x.toRat⌋.toNat ≤ 2 ^ 24 := by
    have : ((⌊pixel.y.toRat⌋.toNat * image.width.toNat + ⌊pixel.x.toRat⌋.toNat : ℕ) : ℤ)
        ≤ 2 ^ 24 := by
      rw [hsum_nat]
      omega
    exact_mod_cast this
  have nmul := Float32.mul_isNat _ _ _ _ ny nw (by omega)
  have nadd := Float32.add_isNat _ _ _ _ nmul nx hbound
  have := Float32.toInt_isNat _ _ nadd (by omega)
  unfold index
  rw [this, hsum_nat]

end Binary32

/-! ## The correction of a frame in single precision -/

/-- A fold of pixel writes: when every value is defined and every target lies in the
matrix, the fold succeeds, keeps the header and leaves at each cell the value of the
iteration that targets it. -/
theorem atSet_fold (v : Nat → Nat → Option Nat) (hv : ∀ i j, ∃ x, v i j = some x) :
    ∀ (ops : List (Nat × Nat)) (m : cv.Mat), m.Valid →
      (∀ ij ∈ ops, ij.2 < m.rows ∧ ij.1 < m.cols) →
      ∃ m', ops.foldlM (fun (m : cv.Mat) (ij : Nat × Nat) =>
          (v ij.1 ij.2).bind fun b => m.atSet ij.2 ij.1 b) m = some m' ∧
        m'.rows = m.rows ∧ m'.cols = m.cols ∧
        ∀ r c, m'.atGet r c = if (c, r) ∈ ops then v c r else m.atGet r c := by
  intro ops
  induction ops with
  | nil =>
    intro m _ _
    exact ⟨m, rfl, rfl, rfl, fun r c => by simp⟩
  | cons ij ops ih =>
    intro m hvalid hin
    obtain ⟨x, hx⟩ := hv ij.1 ij.2
    have hij := hin ij (List.mem_cons_self _ _)
    have hset := cv.Mat.atSet_eq_some m ij.2 ij.1 x hij.1 hij.2
    obtain ⟨s1, s2, _, _, _⟩ := cv.Mat.atSet_shape m _ ij.2 ij.1 x hset
    have hvalid1 := cv.Mat.atSet_valid m _ ij.2 ij.1 x hvalid hset
    obtain ⟨m', hm', e1, e2, hget⟩ := ih _ hvalid1 (by
      intro kl hkl
      rw [s1, s2]
      exact hin kl (List.mem_cons_of_mem _ hkl))
    refine ⟨m', ?_, e1.trans s1, e2.trans s2, ?_⟩
    · rw [List.foldlM_cons, hx]
      show (m.atSet ij.2 ij.1 x).bind _ = _
      rw [hset]
      exact hm'
    · intro r c
      rw [hget r c, cv.Mat.atGet_atSet m _ ij.2 ij.1 x r c hvalid hset]
      by_cases hmem : (c, r) ∈ ops
      · rw [if_pos hmem, if_pos (List.mem_cons_of_mem _ hmem)]
      · rw [if_neg hmem]
        by_cases heq : r = ij.2 ∧ c = ij.1
        · obtain ⟨rfl, rfl⟩ := heq
          rw [if_pos ⟨rfl, rfl⟩, if_pos (List.mem_cons_self _ _), hx]
        · rw [if_neg heq, if_neg]
          intro hc
          rcases List.mem_cons.mp hc with h | h
          · exact heq ⟨congrArg Prod.snd h, congrArg Prod.fst h⟩
          · exact hmem h

theorem float_loopBody_eq (W H : Nat) (lImage rImage : Binary32.Image) (i j : Nat)
    (s : Corrected) :
    Binary32.loopBody W H lImage rImage i j s =
      (Binary32.brightnessOf W H lImage i j).bind fun bl =>
      (s.lcCam.atSet j i bl).bind fun lcCam =>
      (Binary32.brightnessOf W H rImage i j).bind fun br =>
      (s.rcCam.atSet j i br).bind fun rcCam =>
      some { lcCam := lcCam, rcCam := rcCam, brightness := some br } := rfl

theorem float_loopBody_fission (W H : Nat) (lImage rImage : Binary32.Image) (s : Corrected)
    (ij : Nat × Nat) :
    (Binary32.loopBody W H lImage rImage ij.1 ij.2 s).map (fun t => (t.lcCam, t.rcCam)) =
      (Binary32.rectifyStep W H lImage s.lcCam ij).bind fun a =>
        (Binary32.rectifyStep W H rImage s.rcCam ij).bind fun b => some (a, b) := by
  rw [float_loopBody_eq]
  unfold Binary32.rectifyStep
  cases Binary32.brightnessOf W H lImage ij.1 ij.2 with
  | none => rfl
  | some bl =>
    simp only [Option.some_bind]
    cases s.lcCam.atSet ij.2 ij.1 bl with
    | none => rfl
    | some a =>
      simp only [Option.some_bind]
      cases Binary32.brightnessOf W H rImage ij.1 ij.2 with
      | none => rfl
      | some br =>
        simp only [Option.some_bind]
        cases s.rcCam.atSet ij.2 ij.1 br with
        | none => rfl
        | some b => rfl

theorem float_correctWith_fission (W H : Nat) (lImage rImage : Binary32.Image) :
    (Binary32.correctWith W H lImage rImage).map (fun t => (t.lcCam, t.rcCam)) =
      (Binary32.rectify W H lImage).bind fun a =>
        (Binary32.rectify W H rImage).bind fun b => some (a, b) := by
  have h := foldlM_fission
    (fun s (ij : Nat × Nat) => Binary32.loopBody W H lImage rImage ij.1 ij.2 s)
    Corrected.lcCam Corrected.rcCam (Binary32.rectifyStep W H lImage)
    (Binary32.rectifyStep W H rImage)
    (fun s ij => float_loopBody_fission W H lImage rImage s ij) (pixelLoop W H)
    { lcCam := cv.Mat.create W H, rcCam := cv.Mat.create W H, brightness := none }
  exact h

/-- For a raw image of at most `2 ^ 24` pixels the `float` test of lines 107 and 119 is
the exact test on the values of the coordinates. -/
theorem float_inImage_iff (pixel : Binary32.Vector) (image : Binary32.Image)
    (hsize : image.width * image.height ≤ 2 ^ 24) :
    Binary32.inImage pixel image ↔
      (pixel.x.isFinite = true ∧ pixel.y.isFinite = true ∧
        0 ≤ pixel.x.toRat ∧ pixel.x.toRat < image.width ∧
        0 ≤ pixel.y.toRat ∧ pixel.y.toRat < image.height) := by
  have e0 : Float32.ofInt 0 = Float32.finite 0 := by
    have := Float32.ofInt_exact 0 (by norm_num)
    simpa using this
  constructor
  · intro hin
    obtain ⟨⟨fx, fy⟩, x0, xw, y0, yh, _⟩ := Binary32.index_exact pixel image hsize hin
    exact ⟨fx, fy, x0, xw, y0, yh⟩
  · rintro ⟨fx, fy, x0, xw, y0, yh⟩
    have hw : 0 < image.width := by
      have : (0 : ℚ) < (image.width : ℚ) := lt_of_le_of_lt x0 xw
      exact_mod_cast this
    have hh : 0 < image.height := by
      have : (0 : ℚ) < (image.height : ℚ) := lt_of_le_of_lt y0 yh
      exact_mod_cast this
    have hw24 : image.width ≤ 2 ^ 24 := by nlinarith
    have hh24 : image.height ≤ 2 ^ 24 := by nlinarith
    have ew : Float32.ofInt image.width = Float32.finite (image.width : ℚ) :=
      Float32.ofInt_exact _ (by rw [abs_of_pos hw]; exact hw24)
    have eh : Float32.ofInt image.height = Float32.finite (image.height : ℚ) :=
      Float32.ofInt_exact _ (by rw [abs_of_pos hh]; exact hh24)
    unfold Binary32.inImage
    rw [e0, ew, eh]
    refine ⟨?_, ?_, ?_, ?_⟩
    · cases hx : pixel.x with
      | nan => rw [hx] at fx; cases fx
      | inf negative => rw [hx] at fx; cases fx
      | negZero => simp [Float32.ge, Float32.toRat]
      | finite value => rw [hx] at x0; simpa [Float32.ge, Float32.toRat] using x0
    · cases hx : pixel.x with
      | nan => rw [hx] at fx; cases fx
      | inf negative => rw [hx] at fx; cases fx
      | negZero => rw [hx] at xw; simpa [Float32.lt, Float32.toRat] using xw
      | finite value => rw [hx] at xw; simpa [Float32.lt, Float32.toRat] using xw
    · cases hy : pixel.y with
      | nan => rw [hy] at fy; cases fy
      | inf negative => rw [hy] at fy; cases fy
      | negZero => simp [Float32.ge, Float32.toRat]
      | finite value => rw [hy] at y0; simpa [Float32.ge, Float32.toRat] using y0
    · cases hy : pixel.y with
      | nan => rw [hy] at fy; cases fy
      | inf negative => rw [hy] at fy; cases fy
      | negZero => rw [hy] at yh; simpa [Float32.lt, Float32.toRat] using yh
      | finite value => rw [hy] at yh; simpa [Float32.lt, Float32.toRat] using yh

theorem float_brightnessOf_eq_specPixel (W H : Nat) (image : Binary32.Image)
    (hsize : image.width * image.height ≤ 2 ^ 24) (i j : Nat) :
    Binary32.brightnessOf W H image i j = Binary32.specPixel W H image i j := by
  unfold Binary32.brightnessOf Binary32.specPixel
  simp only []
  by_cases h : Binary32.inImage (image.warp (image.ray W H i j)) image
  · rw [if_pos h, if_pos ((float_inImage_iff _ image hsize).mp h)]
    obtain ⟨_, x0, xw, y0, yh, hidx⟩ := Binary32.index_exact _ image hsize h
    rw [hidx]
    have hw : (0 : Int) < image.width := by
      have : (0 : ℚ) < (image.width : ℚ) := lt_of_le_of_lt x0 xw
      exact_mod_cast this
    have h0 : 0 ≤ ⌊(image.warp (image.ray W H i j)).y.toRat⌋ * image.width +
        ⌊(image.warp (image.ray W H i j)).x.toRat⌋ := by
      have fx := Int.floor_nonneg.mpr x0
      have fy := Int.floor_nonneg.mpr y0
      positivity
    show image.dataAt _ = _
    unfold Binary32.Image.dataAt
    rw [if_pos h0]
  · rw [if_neg h, if_neg (fun hc => h ((float_inImage_iff _ image hsize).mpr hc))]

theorem float_brightnessOf_isSome (W H : Nat) (image : Binary32.Image)
    (hwf : image.WellFormed) (hsize : image.width * image.height ≤ 2 ^ 24) (i j : Nat) :
    ∃ v, Binary32.brightnessOf W H image i j = some v := by
  unfold Binary32.brightnessOf
  by_cases h : Binary32.inImage (image.warp (image.ray W H i j)) image
  · rw [if_pos h]
    obtain ⟨_, x0, xw, y0, yh, hidx⟩ := Binary32.index_exact _ image hsize h
    rw [hidx]
    have hw : (0 : Int) < image.width := by
      have : (0 : ℚ) < (image.width : ℚ) := lt_of_le_of_lt x0 xw
      exact_mod_cast this
    have fx := Int.floor_nonneg.mpr x0
    have fy := Int.floor_nonneg.mpr y0
    have fxw := Int.floor_lt.mpr xw
    have fyh := Int.floor_lt.mpr yh
    have h0 : 0 ≤ ⌊(image.warp (image.ray W H i j)).y.toRat⌋ * image.width +
        ⌊(image.warp (image.ray W H i j)).x.toRat⌋ := by positivity
    have hprod : ⌊(image.warp (image.ray W H i j)).y.toRat⌋ * image.width ≤
        (image.height - 1) * image.width :=
      Int.mul_le_mul_of_nonneg_right (by omega) hw.le
    have h1 : ⌊(image.warp (image.ray W H i j)).y.toRat⌋ * image.width +
        ⌊(image.warp (image.ray W H i j)).x.toRat⌋ < image.width * image.height := by
      nlinarith
    unfold Binary32.Image.WellFormed at hwf
    have hlt : (⌊(image.warp (image.ray W H i j)).y.toRat⌋ * image.width +
        ⌊(image.warp (image.ray W H i j)).x.toRat⌋).toNat < image.data.length := by omega
    refine ⟨image.data[(⌊(image.warp (image.ray W H i j)).y.toRat⌋ * image.width +
        ⌊(image.warp (image.ray W H i j)).x.toRat⌋).toNat], ?_⟩
    show image.dataAt _ = _
    unfold Binary32.Image.dataAt
    rw [if_pos h0]
    exact List.getElem?_eq_getElem hlt
  · rw [if_neg h]
    exact ⟨255, rfl⟩

/-- Both corrected matrices of a frame in `float` arithmetic, for well-formed raw images
of at most `2 ^ 24` pixels: the loop finishes and each matrix holds at `(j, i)` the
brightness computed at counters `(i, j)`. -/
theorem float_correct_spec (lImage rImage : Binary32.Image)
    (hl : lImage.WellFormed) (hr : rImage.WellFormed)
    (hls : lImage.width * lImage.height ≤ 2 ^ 24)
    (hrs : rImage.width * rImage.height ≤ 2 ^ 24) :
    ∃ s, Binary32.correct lImage rImage = some s ∧
      (∀ i j, i < CORR_WIDTH → j < CORR_HEIGHT →
        s.lcCam.atGet j i = Binary32.brightnessOf CORR_WIDTH CORR_HEIGHT lImage i j) ∧
      (∀ i j, i < CORR_WIDTH → j < CORR_HEIGHT →
        s.rcCam.atGet j i = Binary32.brightnessOf CORR_WIDTH CORR_HEIGHT rImage i j) := by
  have fold := fun (image : Binary32.Image) (hwf : image.WellFormed)
      (hsize : image.width * image.height ≤ 2 ^ 24) =>
    atSet_fold (Binary32.brightnessOf CORR_WIDTH CORR_HEIGHT image)
      (float_brightnessOf_isSome CORR_WIDTH CORR_HEIGHT image hwf hsize)
      (pixelLoop CORR_WIDTH CORR_HEIGHT) (cv.Mat.create CORR_WIDTH CORR_HEIGHT)
      (cv.Mat.create_valid _ _) (by
        intro ij hij
        have h := (mem_pixelLoop CORR_WIDTH CORR_HEIGHT ij.1 ij.2).mp hij
        show ij.2 < CORR_WIDTH ∧ ij.1 < CORR_HEIGHT
        rw [CORR_HEIGHT_eq] at h ⊢
        exact ⟨h.2, h.1⟩)
  obtain ⟨lc, hlc, _, _, lget⟩ := fold lImage hl hls
  obtain ⟨rc, hrc, _, _, rget⟩ := fold rImage hr hrs
  have hfis := float_correctWith_fission CORR_WIDTH CORR_HEIGHT lImage rImage
  have hlc' : Binary32.rectify CORR_WIDTH CORR_HEIGHT lImage = some lc := hlc
  have hrc' : Binary32.rectify CORR_WIDTH CORR_HEIGHT rImage = some rc := hrc
  rw [hlc', hrc'] at hfis
  cases hs : Binary32.correctWith CORR_WIDTH CORR_HEIGHT lImage rImage with
  | none => rw [hs] at hfis; cases hfis
  | some s =>
    rw [hs] at hfis
    have h2 : (s.lcCam, s.rcCam) = (lc, rc) := by simpa using hfis
    have e1 : s.lcCam = lc := congrArg Prod.fst h2
    have e2 : s.rcCam = rc := congrArg Prod.snd h2
    refine ⟨s, hs, ?_, ?_⟩
    · intro i j hi hj
      rw [e1, lget j i, if_pos ((mem_pixelLoop _ _ i j).mpr ⟨hi, hj⟩)]
    · intro i j hi hj
      rw [e2, rget j i, if_pos ((mem_pixelLoop _ _ i j).mpr ⟨hi, hj⟩)]

/-! ## C1 -/

/-- C1, amended: with the ray `((i / W - offsetX) / scaleX, (j / H - offsetY) / scaleY)`
evaluated in `float` as the code does, for well-formed raw images (buffer of length
`w * h`) of at most `2 ^ 24` pixels, any calibration and warp, the correction of a frame
finishes and, at every output pixel `(i, j)` with `i < W` and `j < H`, row `j`, column
`i` of each rectified image holds `raw[floor(py) * w + floor(px)]` when `px` and `py`
are numbers with `0 ≤ px < w` and `0 ≤ py < h`, and 255 otherwise, with `(px, py)` the
warp of the pixel's ray. -/
theorem float_correct_pixel (lImage rImage : Binary32.Image)
    (hl : lImage.WellFormed) (hr : rImage.WellFormed)
    (hls : lImage.width * lImage.height ≤ 2 ^ 24)
    (hrs : rImage.width * rImage.height ≤ 2 ^ 24)
    (i j : Nat) (hi : i < CORR_WIDTH) (hj : j < CORR_HEIGHT) :
    ∃ s vl vr, Binary32.correct lImage rImage = some s ∧
      s.lcCam.atGet j i = some vl ∧
      Binary32.specPixel CORR_WIDTH CORR_HEIGHT lImage i j = some vl ∧
      s.rcCam.atGet j i = some vr ∧
      Binary32.specPixel CORR_WIDTH CORR_HEIGHT rImage i j = some vr := by
  obtain ⟨s, hs, lget, rget⟩ := float_correct_spec lImage rImage hl hr hls hrs
  obtain ⟨vl, hvl⟩ := float_brightnessOf_isSome CORR_WIDTH CORR_HEIGHT lImage hl hls i j
  obtain ⟨vr, hvr⟩ := float_brightnessOf_isSome CORR_WIDTH CORR_HEIGHT rImage hr hrs i j
  refine ⟨s, vl, vr, hs, ?_, ?_, ?_, ?_⟩
  · rw [lget i j hi hj, hvl]
  · rw [← float_brightnessOf_eq_specPixel _ _ _ hls, hvl]
  · rw [rget i j hi hj, hvr]
  · rw [← float_brightnessOf_eq_specPixel _ _ _ hrs, hvr]

theorem float_image42_wellFormed : Binary32.image42.WellFormed := by
  unfold Binary32.Image.WellFormed Binary32.image42
  decide

theorem float_image42_size : Binary32.image42.width * Binary32.image42.height ≤ 2 ^ 24 := by
  unfold Binary32.image42
  norm_num

theorem float_specPixel_image42 (i j : Nat) :
    Binary32.specPixel CORR_WIDTH CORR_HEIGHT Binary32.image42 i j = some 42 := by
  simp [Binary32.specPixel, Binary32.image42, Float32.isFinite, Float32.toRat]

/-- C1, witness of the amended claim: with the 1 × 1 raw image of value 42 whose warp
sends every ray to `(0, 0)` on both cameras, pixel `(1, 1)` of both rectified images
is 42. -/
theorem float_correct_pixel_witness :
    Binary32.image42.WellFormed ∧
    Binary32.image42.width * Binary32.image42.height ≤ 2 ^ 24 ∧
    1 < CORR_WIDTH ∧ 1 < CORR_HEIGHT ∧
    ∃ s, Binary32.correct Binary32.image42 Binary32.image42 = some s ∧
      s.lcCam.atGet 1 1 = some 42 ∧ s.rcCam.atGet 1 1 = some 42 := by
  refine ⟨float_image42_wellFormed, float_image42_size, by decide, by decide, ?_⟩
  obtain ⟨s, vl, vr, hs, h1, h2, h3, h4⟩ :=
    float_correct_pixel Binary32.image42 Binary32.image42
      float_image42_wellFormed float_image42_wellFormed
      float_image42_size float_image42_size 1 1 (by decide) (by decide)
  rw [float_specPixel_image42] at h2 h4
  cases h2
  cases h4
  exact ⟨s, hs, h1, h3⟩

/-! ## A raw image of more than `2 ^ 24` pixels -/

theorem float_log_large (n : ℕ) (h1 : 2 ^ 24 ≤ n) (h2 : n < 2 ^ 25) :
    max (Int.log 2 (n : ℚ)) (-126) - 23 = 1 := by
  have hlog : Nat.log 2 n = 24 :=
    (Nat.log_eq_iff (Or.inl (by norm_num))).mpr ⟨h1, h2⟩
  rw [Int.log_natCast, hlog]
  norm_num

/-- The product `4099 * 4096` is a binary32 number. -/
theorem float_roundMag_product : Float32.roundMag 16789504 = 16789504 := by
  have h := float_log_large 16789504 (by norm_num) (by norm_num)
  apply Float32.roundMag_of_multiple _ 8394752
  have e : ((16789504 : ℕ) : ℚ) = (16789504 : ℚ) := by norm_num
  rw [e] at h
  rw [h]
  norm_num

/-- The sum `4099 * 4096 + 4095 = 16793599` lies halfway between two binary32 numbers and
rounds to the even one, `16793600`. -/
theorem float_roundMag_sum : Float32.roundMag 16793599 = 16793600 := by
  have h := float_log_large 16793599 (by norm_num) (by norm_num)
  have e : ((16793599 : ℕ) : ℚ) = (16793599 : ℚ) := by norm_num
  rw [e] at h
  unfold Float32.roundMag
  rw [h]
  have hfloor : ⌊(16793599 : ℚ) / 2 ^ (1 : ℤ)⌋ = 8396799 := by
    rw [Int.floor_eq_iff]
    norm_num
  unfold Float32.roundHalfEven
  rw [hfloor]
  norm_num

theorem float_index_large :
    Binary32.index Binary32.pixelLarge Binary32.imageLarge = some 16793600 := by
  have ew : Float32.ofInt (4096 : ℤ) = Float32.finite 4096 := by
    have := Float32.ofInt_exact 4096 (by norm_num)
    simpa using this
  unfold Binary32.index Binary32.pixelLarge Binary32.imageLarge
  simp only [Float32.floor]
  rw [ew]
  have hfy : ⌊(8199 : ℚ) / 2⌋ = 4099 := by
    rw [Int.floor_eq_iff]
    norm_num
  have hfx : ⌊(8191 : ℚ) / 2⌋ = 4095 := by
    rw [Int.floor_eq_iff]
    norm_num
  rw [hfy, hfx, Float32.mul_finite_finite]
  have hmul : Float32.make (xor (decide (((4099 : ℤ) : ℚ) < 0)) (decide ((4096 : ℚ) < 0)))
      |((4099 : ℤ) : ℚ) * 4096| = Float32.finite 16789504 := by
    have e1 : |((4099 : ℤ) : ℚ) * 4096| = 16789504 := by norm_num
    have e2 : decide (((4099 : ℤ) : ℚ) < 0) = false := by norm_num
    have e3 : decide ((4096 : ℚ) < 0) = false := by norm_num
    rw [e1, e2, e3]
    unfold Float32.make
    rw [float_roundMag_product]
    norm_num
  rw [hmul, Float32.add_finite_finite]
  have hadd : (if (16789504 : ℚ) + ((4095 : ℤ) : ℚ) = 0 then
        (if (decide ((16789504 : ℚ) < 0) && decide (((4095 : ℤ) : ℚ) < 0)) = true
          then Float32.negZero else Float32.finite 0)
      else Float32.make (decide ((16789504 : ℚ) + ((4095 : ℤ) : ℚ) < 0))
        |(16789504 : ℚ) + ((4095 : ℤ) : ℚ)|) = Float32.finite 16793600 := by
    have e1 : (16789504 : ℚ) + ((4095 : ℤ) : ℚ) = 16793599 := by norm_num
    rw [e1, if_neg (by norm_num)]
    have e2 : decide ((16793599 : ℚ) < 0) = false := by norm_num
    have e3 : |(16793599 : ℚ)| = 16793599 := by norm_num
    rw [e2, e3]
    unfold Float32.make
    rw [float_roundMag_sum]
    norm_num
  rw [hadd]
  simp only [Float32.toInt]
  have hfl : ⌊(16793600 : ℚ)⌋ = 16793600 := by
    rw [Int.floor_eq_iff]
    norm_num
  norm_num [hfl]

theorem float_inImage_large : Binary32.inImage Binary32.pixelLarge Binary32.imageLarge := by
  have e0 : Float32.ofInt 0 = Float32.finite 0 := by
    have := Float32.ofInt_exact 0 (by norm_num)
    simpa using this
  have ew : Float32.ofInt (4096 : ℤ) = Float32.finite 4096 := by
    have := Float32.ofInt_exact 4096 (by norm_num)
    simpa using this
  have eh : Float32.ofInt (4100 : ℤ) = Float32.finite 4100 := by
    have := Float32.ofInt_exact 4100 (by norm_num)
    simpa using this
  unfold Binary32.inImage Binary32.pixelLarge Binary32.imageLarge
  simp only []
  rw [e0, ew, eh]
  simp only [Float32.ge, Float32.lt, Float32.toRat]
  norm_num

theorem float_imageLarge_wellFormed : Binary32.imageLarge.WellFormed := by
  unfold Binary32.Image.WellFormed Binary32.imageLarge
  simp only [List.length_replicate]
  norm_num

theorem float_dataAt_large : Binary32.imageLarge.dataAt 16793600 = none := by
  unfold Binary32.Image.dataAt Binary32.imageLarge
  rw [if_pos (by norm_num)]
  simp only []
  rw [List.getElem?_eq_none_iff, List.length_replicate]
  norm_num

theorem float_brightnessOf_large (W H i j : Nat) :
    Binary32.brightnessOf W H Binary32.imageLarge i j = none := by
  unfold Binary32.brightnessOf
  have hw : Binary32.imageLarge.warp (Binary32.imageLarge.ray W H i j) =
      Binary32.pixelLarge := rfl
  rw [hw, if_pos float_inImage_large, float_index_large, Option.some_bind]
  exact float_dataAt_large

theorem float_specPixel_large (W H i j : Nat) :
    Binary32.specPixel W H Binary32.imageLarge i j = some 7 := by
  have hw : Binary32.imageLarge.warp (Binary32.imageLarge.ray W H i j) =
      Binary32.pixelLarge := rfl
  unfold Binary32.specPixel
  simp only [hw]
  have hfy : ⌊(8199 : ℚ) / 2⌋ = 4099 := by
    rw [Int.floor_eq_iff]
    norm_num
  have hfx : ⌊(8191 : ℚ) / 2⌋ = 4095 := by
    rw [Int.floor_eq_iff]
    norm_num
  simp only [Binary32.pixelLarge, Binary32.imageLarge, Float32.isFinite, Float32.toRat,
    hfy, hfx]
  rw [if_pos (by norm_num)]
  rw [List.getElem?_replicate, if_pos (by norm_num)]

theorem pixelLoop_head (W H : Nat) :
    ∃ rest, pixelLoop (W + 1) (H + 1) = (0, 0) :: rest := by
  unfold pixelLoop
  rw [List.range_succ_eq_map, List.range_succ_eq_map]
  exact ⟨_, rfl⟩

theorem float_correct_large (rImage : Binary32.Image) :
    Binary32.correct Binary32.imageLarge rImage = none := by
  obtain ⟨rest, hrest⟩ := pixelLoop_head 639 639
  have hW : CORR_WIDTH = 639 + 1 := rfl
  have hH : CORR_HEIGHT = 639 + 1 := rfl
  unfold Binary32.correct Binary32.correctWith
  rw [hW, hH, hrest, List.foldlM_cons, float_loopBody_eq, float_brightnessOf_large]
  rfl

/-- C1, counterexample: a well-formed 4096 × 4100 raw image whose warp sends every ray to
`(4095.5, 4099.5)`. The specification's pixel is the last raw byte, `raw[16793599] = 7`,
but the `float` index rounds to `16793600`, the read leaves the buffer and the frame has
no rectified image. -/
theorem float_large_image_not_rectified :
    Binary32.imageLarge.WellFormed ∧ Binary32.image42.WellFormed ∧
    Binary32.specPixel CORR_WIDTH CORR_HEIGHT Binary32.imageLarge 0 0 = some 7 ∧
    Binary32.brightnessOf CORR_WIDTH CORR_HEIGHT Binary32.imageLarge 0 0 = none ∧
    Binary32.correct Binary32.imageLarge Binary32.image42 = none :=
  ⟨float_imageLarge_wellFormed, float_image42_wellFormed, float_specPixel_large _ _ 0 0,
    float_brightnessOf_large _ _ 0 0, float_correct_large Binary32.image42⟩

/-! ## C10 -/

/-- C10, counterexample: on the well-formed 4096 × 4100 raw image the coordinate
`(4095.5, 4099.5)` passes the bounds test, yet the `float` index is `16793600`, equal to
`w * h` and therefore not below it, and the read at that index leaves the buffer. -/
theorem float_large_index_past_buffer :
    Binary32.imageLarge.WellFormed ∧
    Binary32.inImage Binary32.pixelLarge Binary32.imageLarge ∧
    Binary32.index Binary32.pixelLarge Binary32.imageLarge = some 16793600 ∧
    Binary32.imageLarge.width * Binary32.imageLarge.height = 16793600 ∧
    Binary32.imageLarge.dataAt 16793600 = none := by
  refine ⟨float_imageLarge_wellFormed, float_inImage_large, float_index_large, ?_,
    float_dataAt_large⟩
  unfold Binary32.imageLarge
  norm_num

/-- C10, amended: for every raw size `(w, h)` with `w * h ≤ 2 ^ 24` and every mapped
coordinate that passes the bounds test, the `float` evaluation of the sample index gives
exactly `floor(py) * w + floor(px)`, which satisfies `0 ≤ index < w * h`; when the raw
buffer has length `w * h` the read is inside the buffer and returns a byte; and for
every raw size, when `w = 0` or `h = 0` no coordinate passes the test. -/
theorem float_sample_index_in_range (pixel : Binary32.Vector) (image : Binary32.Image) :
    (image.width * image.height ≤ 2 ^ 24 → Binary32.inImage pixel image →
      ∃ k, Binary32.index pixel image = some k ∧
        k = ⌊pixel.y.toRat⌋ * image.width + ⌊pixel.x.toRat⌋ ∧
        0 ≤ k ∧ k < image.width * image.height) ∧
    (image.WellFormed → image.width * image.height ≤ 2 ^ 24 → Binary32.inImage pixel image →
      ∃ k v, Binary32.index pixel image = some k ∧ k.toNat < image.data.length ∧
        image.dataAt k = some v) ∧
    (image.width = 0 ∨ image.height = 0 → ¬ Binary32.inImage pixel image) := by
  have main : image.width * image.height ≤ 2 ^ 24 → Binary32.inImage pixel image →
      ∃ k, Binary32.index pixel image = some k ∧
        k = ⌊pixel.y.toRat⌋ * image.width + ⌊pixel.x.toRat⌋ ∧
        0 ≤ k ∧ k < image.width * image.height := by
    intro hsize hin
    obtain ⟨_, x0, xw, y0, yh, hidx⟩ := Binary32.index_exact pixel image hsize hin
    obtain ⟨hw, _⟩ := Binary32.size_pos_of_inImage pixel image hin
    have fx := Int.floor_nonneg.mpr x0
    have fy := Int.floor_nonneg.mpr y0
    have fxw := Int.floor_lt.mpr xw
    have fyh := Int.floor_lt.mpr yh
    have hprod : ⌊pixel.y.toRat⌋ * image.width ≤ (image.height - 1) * image.width :=
      Int.mul_le_mul_of_nonneg_right (by omega) hw.le
    refine ⟨_, hidx, rfl, by positivity, by nlinarith⟩
  refine ⟨main, ?_, ?_⟩
  · intro hwf hsize hin
    obtain ⟨k, hk, _, k0, klt⟩ := main hsize hin
    unfold Binary32.Image.WellFormed at hwf
    have hlt : k.toNat < image.data.length := by omega
    refine ⟨k, image.data[k.toNat], hk, hlt, ?_⟩
    unfold Binary32.Image.dataAt
    rw [if_pos k0]
    exact List.getElem?_eq_getElem hlt
  · intro h0 hin
    obtain ⟨hw, hh⟩ := Binary32.size_pos_of_inImage pixel image hin
    rcases h0 with h0 | h0
    · omega
    · omega

/-- C10, witness of the amended claim: on the 1 × 1 example image the coordinate
`(1/2, 1/2)` passes the test and its sample index is 0, inside the one-byte buffer. -/
theorem float_sample_index_in_range_witness :
    Binary32.image42.WellFormed ∧
    Binary32.image42.width * Binary32.image42.height ≤ 2 ^ 24 ∧
    Binary32.inImage ⟨Float32.finite (1 / 2), Float32.finite (1 / 2), Float32.finite 0⟩
      Binary32.image42 ∧
    (∃ k, Binary32.index ⟨Float32.finite (1 / 2), Float32.finite (1 / 2), Float32.finite 0⟩
        Binary32.image42 = some k ∧ 0 ≤ k ∧
        k < Binary32.image42.width * Binary32.image42.height) ∧
    ∃ k v, Binary32.index ⟨Float32.finite (1 / 2), Float32.finite (1 / 2), Float32.finite 0⟩
        Binary32.image42 = some k ∧ k.toNat < Binary32.image42.data.length ∧
      Binary32.image42.dataAt k = some v := by
  have hin : Binary32.inImage
      ⟨Float32.finite (1 / 2), Float32.finite (1 / 2), Float32.finite 0⟩
      Binary32.image42 := by
    have e0 : Float32.ofInt 0 = Float32.finite 0 := by
      have := Float32.ofInt_exact 0 (by norm_num)
      simpa using this
    have e1 : Float32.ofInt (1 : ℤ) = Float32.finite 1 := by
      have := Float32.ofInt_exact 1 (by norm_num)
      simpa using this
    unfold Binary32.inImage Binary32.image42
    simp only []
    rw [e0, e1]
    simp only [Float32.ge, Float32.lt, Float32.toRat]
    norm_num
  have h := float_sample_index_in_range
    ⟨Float32.finite (1 / 2), Float32.finite (1 / 2), Float32.finite 0⟩ Binary32.image42
  obtain ⟨k, hk, _, k0, klt⟩ := h.1 float_image42_size hin
  exact ⟨float_image42_wellFormed, float_image42_size, hin, ⟨k, hk, k0, klt⟩,
    h.2.1 float_image42_wellFormed float_image42_size hin⟩

/-- A zero scale makes the ray infinite, as in the code: `1 / 0` is `+inf`. -/
theorem float_div_zero :
    Float32.div (Float32.finite 1) (Float32.finite 0) = Float32.inf false := by
  simp [Float32.div, Float32.toRat, Float32.signBit]

/-- The quotient `7 / 640` is not a binary32 number: it rounds down, to
`11744051 / 2 ^ 30`, so a ray computed in `float` can fall below its exact value. -/
theorem float_div_rounds :
    Float32.div (Float32.ofInt 7) (Float32.ofInt 640) =
      Float32.finite (11744051 / 1073741824) ∧
    (11744051 / 1073741824 : ℚ) < 7 / 640 := by
  refine ⟨?_, by norm_num⟩
  have e7 : Float32.ofInt (7 : ℤ) = Float32.finite 7 := by
    have := Float32.ofInt_exact 7 (by norm_num)
    simpa using this
  have e640 : Float32.ofInt (640 : ℤ) = Float32.finite 640 := by
    have := Float32.ofInt_exact 640 (by norm_num)
    simpa using this
  have hlog : Int.log 2 ((7 : ℚ) / 640) = -7 := by
    have h1 : (-7 : ℤ) ≤ Int.log 2 ((7 : ℚ) / 640) := by
      rw [← Int.zpow_le_iff_le_log (by norm_num) (by norm_num)]
      norm_num
    have h2 : Int.log 2 ((7 : ℚ) / 640) < -6 := by
      rw [← Int.lt_zpow_iff_log_lt (by norm_num) (by norm_num)]
      norm_num
    omega
  have hround : Float32.roundMag ((7 : ℚ) / 640) = 11744051 / 1073741824 := by
    unfold Float32.roundMag
    rw [hlog]
    have hmax : max (-7 : ℤ) (-126) - 23 = -30 := by norm_num
    rw [hmax]
    have hfloor : ⌊(7 : ℚ) / 640 / 2 ^ (-30 : ℤ)⌋ = 11744051 := by
      rw [Int.floor_eq_iff]
      norm_num
    unfold Float32.roundHalfEven
    rw [hfloor]
    norm_num
  rw [e7, e640]
  have hdiv : Float32.div (Float32.finite 7) (Float32.finite 640) =
      Float32.make false |(7 : ℚ) / 640| := by
    have n7 : decide ((7 : ℚ) < 0) = false := by norm_num
    have n640 : decide ((640 : ℚ) < 0) = false := by norm_num
    simp only [Float32.div, Float32.toRat, Float32.signBit, n7, n640]
    rw [if_neg (by norm_num)]
    rfl
  rw [hdiv, abs_of_pos (by norm_num)]
  unfold Float32.make
  rw [hround]
  norm_num
